import Mathlib

/-!
# Slashing plugin of PlatON-Go

A shallow embedding of `x/plugin/slashing_plugin.go` and theorems about it.

Conventions of the embedding:

* Go byte slices that are only read for their contents are lists of naturals (`Bytes`);
  where the source tells a nil slice from an empty one (`CheckMutiSign`), the value is a
  `GoBytes`, with `none` for nil.
* `*big.Int` is `Int`; `big.Int.Div` is Euclidean division and panics on a zero divisor.
* `uint16`/`uint64` are naturals, reduced modulo the width where the source can overflow.
* A Go function that returns an `error` (or can panic) returns a `Res`; effects on the
  collaborators (key-value store, contract state, staking ledger) are explicit state passing
  over `World`, which also keeps a ghost trace of the calls made to collaborators.
-/

namespace Slashing

/-! ## Basic data -/

/-- Contents of a byte slice. -/
abbrev Bytes := List Nat

/-- Go value of type `[]byte`: `none` is the nil slice, `some l` a non-nil slice holding `l`. -/
abbrev GoBytes := Option Bytes

/-- Go `len` of a byte slice; the nil slice has length zero. -/
def GoBytes.len : GoBytes → Nat
  | none => 0
  | some l => l.length

/-- Go `error` values met by the plugin: plain errors and `common.BizError`. -/
inductive Err where
  | plain (msg : String)
  | biz (msg : String)
  deriving DecidableEq, Repr

/-- The method `Error()` of an error: its message. -/
def Err.Error : Err → String
  | .plain m => m
  | .biz m => m

/-- Constructor `common.NewBizError`. -/
def NewBizError (text : String) : Err := .biz text

/-- Outcome of a Go call: a value, a returned error, or a run-time panic. -/
inductive Res (α : Type) where
  | ok (a : α)
  | err (e : Err)
  | panic
  deriving DecidableEq, Repr

/-- Modelled from the spec: `common.Hash`, a 32-byte identifier (block hash, transaction
identifier). -/
structure Hash where
  bytes : Bytes
  size_eq : bytes.length = 32
  deriving DecidableEq

/-- Modelled from the spec: `common.Address`, the 20-byte validator address (`AddressBytes`). -/
structure Address where
  bytes : Bytes
  size_eq : bytes.length = 20
  deriving DecidableEq

/-- Modelled from the spec: `discover.NodeID`, the public-key-derived `NodeIdentity`, a
fixed-size array of 64 bytes. -/
structure NodeID where
  bytes : Bytes
  size_eq : bytes.length = 64
  deriving DecidableEq

/-- Method `Bytes()` of `common.Hash`: a non-nil slice of the 32 bytes. -/
def Hash.Bytes (h : Hash) : Bytes := h.bytes

/-- Method `Bytes()` of `common.Address`. -/
def Address.Bytes (a : Address) : Bytes := a.bytes

/-- Method `Bytes()` of `discover.NodeID`. -/
def NodeID.Bytes (n : NodeID) : Bytes := n.bytes

/-- Modelled from the spec: `discover.BytesID`, which fails unless the slice has the size of
a node identity. -/
def BytesID (b : Bytes) : Res NodeID :=
  if h : b.length = 64 then .ok ⟨b, h⟩ else .err (.plain "wrong length, want 64 bytes")

/-- Modelled from the spec: `staking.Candidate`, which exposes the node identity and the four
stake components (`*big.Int`). -/
structure Candidate where
  NodeId : NodeID
  Released : Int
  ReleasedHes : Int
  RestrictingPlan : Int
  RestrictingPlanHes : Int
  deriving DecidableEq

/-- Reason tags of the staking ledger (`staking.LowRatio`, `staking.DoubleSign`). -/
inductive SlashReason where
  | LowRatio
  | DoubleSign
  deriving DecidableEq, Repr

/-! ## Package-level variables (lines 25-46) -/

/-- The bytes of "SlashCb". -/
def curAbnormalPrefix : Bytes := [83, 108, 97, 115, 104, 67, 98]

/-- The bytes of "SlashPb". -/
def preAbnormalPrefix : Bytes := [83, 108, 97, 115, 104, 80, 98]

def blockAmountLow : Nat := 8

def blockAmountHigh : Nat := 5

def blockAmountLowSlashing : Nat := 10

def blockAmountHighSlashing : Nat := 20

def duplicateSignNum : Nat := 2

def duplicateSignLowSlashing : Nat := 10

def duplicateSignHighSlashing : Nat := 20

def errMutiSignVerify : Err := .plain "Multi-sign verification failed"

def errSlashExist : Err := .plain "Punishment has been implemented"

/-! ## Pure helpers (lines 290-338) -/

/-- Modelled from the spec: `utils.Uint64ToBytes`, the 8-byte big-endian encoding
(`BigEndianUint64`). -/
def Uint64ToBytes (val : Nat) : Bytes :=
  [val / 2 ^ 56 % 256, val / 2 ^ 48 % 256, val / 2 ^ 40 % 256, val / 2 ^ 32 % 256,
   val / 2 ^ 24 % 256, val / 2 ^ 16 % 256, val / 2 ^ 8 % 256, val % 256]

/-- Go conversion `uint64(etype)` of an `int32`: sign extension, i.e. the value modulo 2^64. -/
def int32ToUint64 (etype : Int) : Nat := (etype % 2 ^ 64).toNat

/-- Multi-signed result key format addr+blockNumber+_+etype (lines 291-296). -/
def mutiSignKey (addr : Address) (blockNumber : Nat) (etype : Int) : Bytes :=
  let value := addr.Bytes ++ Uint64ToBytes blockNumber
  let value := value ++ [95]
  let value := value ++ Uint64ToBytes (int32ToUint64 etype)
  value

/-- Current-round count key (lines 298-300). -/
def curKey (key : Bytes) : Bytes := curAbnormalPrefix ++ key

/-- Previous-round count key (lines 302-304). -/
def preKey (key : Bytes) : Bytes := preAbnormalPrefix ++ key

/-- Node identity held in a counter key (lines 306-313); `key[len(prefix):]` is the key
without its first `len(prefix)` bytes. -/
def getNodeId (pfx : Bytes) (key : Bytes) : Res NodeID :=
  let key := key.drop pfx.length
  match BytesID key with
  | .ok nodeId => .ok nodeId
  | .err e => .err e
  | .panic => .panic

/-- Under-production test (lines 315-320) for round length `consensusSize`
(`xcom.ConsensusSize`) and validator-set size `consValidatorNum` (`xcom.ConsValidatorNum`),
both `uint64`; the division is the unsigned integer division of Go, for a validator-set size
above zero (the division of Go panics on a zero divisor). -/
def isAbnormal (consensusSize consValidatorNum : Nat) (amount : Nat) : Bool :=
  if amount < consensusSize / consValidatorNum then true else false

/-- Penalty amount (lines 332-338): the sum of the four stake components divided by the
rate. `big.Int.Div` is Euclidean division and panics when the divisor is zero, which is the
result `none`. -/
def calcSlashAmount (candidate : Candidate) (rate : Nat) : Option Int :=
  let sumAmount := candidate.Released + candidate.ReleasedHes
  let sumAmount := sumAmount + candidate.RestrictingPlan
  let sumAmount := sumAmount + candidate.RestrictingPlanHes
  if rate = 0 then none else some (Int.ediv sumAmount (rate : Int))

/-! ## Counter encoding -/

/-- Modelled from the spec: `rlp.EncodeToBytes` at type `uint16`, the canonical serialization
of an unsigned 16-bit integer: zero is the empty string (0x80), a value below 128 is its own
byte, a larger value is its big-endian bytes without leading zero after a length byte. -/
def rlpEncodeUint16 (v : Nat) : Bytes :=
  if v = 0 then [128]
  else if v < 128 then [v]
  else if v < 256 then [129, v]
  else [130, v / 256 % 256, v % 256]

/-- Modelled from the spec: `rlp.DecodeBytes` into a `uint16`; every input that is not the
canonical serialization of a 16-bit value is an error. -/
def rlpDecodeUint16 : Bytes → Res Nat
  | [b] =>
    if b = 128 then .ok 0
    else if 0 < b ∧ b < 128 then .ok b
    else .err (.plain "rlp: cannot decode into uint16")
  | [129, b] =>
    if 128 ≤ b ∧ b < 256 then .ok b else .err (.plain "rlp: non-canonical size information")
  | [130, h, l] =>
    if 0 < h ∧ h < 256 ∧ l < 256 then .ok (h * 256 + l)
    else .err (.plain "rlp: non-canonical integer")
  | _ => .err (.plain "rlp: cannot decode into uint16")

/-! ## Collaborators -/

/-- Modelled from the spec: `consensus.Evidence`, a decoded misbehaviour report. The fields
are the results of its methods `Address()`, `BlockNumber()`, `int32(Type())`, `Hash()` and
`Validate()` (`none` when validation succeeds). -/
structure Evidence where
  Address : Address
  BlockNumber : Nat
  EType : Int
  Hash : Bytes
  Validate : Option Err
  deriving DecidableEq

/-- Block header, as far as the plugin reads it: `Number.Uint64()`, `Extra`, `SealHash()`. -/
structure Header where
  Number : Nat
  Extra : Bytes
  SealHash : Hash
  deriving DecidableEq

/-- Block, as far as the plugin reads it: `Header()` and `Hash()`. -/
structure Block where
  Header : Header
  Hash : Hash
  deriving DecidableEq

/-- Method `NumberU64()` of a block. -/
def Block.NumberU64 (block : Block) : Nat := block.Header.Number

/-- Arguments of one call of the ledger operation `stk.SlashCandidates`. -/
structure SlashCall where
  blockHash : Hash
  blockNumber : Nat
  nodeId : NodeID
  amount : Int
  isDelete : Bool
  reason : SlashReason
  deriving DecidableEq

/-- Ghost trace of the calls the plugin makes to its collaborators, in order. -/
inductive Event where
  | validate (evidence : Evidence)
  | getCandidateInfo (blockHash : Hash) (addr : Address)
  | getCandidateONRound (blockHash : Hash) (blockNumber : Nat)
  | slashCandidates (call : SlashCall) (failed : Bool)
  | setState (key : Bytes) (value : Bytes)
  | dbGet (blockHash : Hash) (key : Bytes)
  | dbWalk (pfx : Bytes)
  | dbPut (key : Bytes) (value : Bytes)
  | dbDel (key : Bytes)
  deriving DecidableEq

/-- Modelled from the spec: base layer of the branch-scoped key-value store (`snapshotdb.DB`),
a finite map from keys to values. -/
abbrev BaseDB := AList (fun _ : Bytes => Bytes)

/-- State of the collaborators. `base` is the base layer of `sp.db`, `storage` the
contract-scoped state of `vm.SlashingContractAddr` in the `xcom.StateDB` (what `GetState`
returns for each key), `txHash` the result of `stateDB.TxHash()`, `ledger` the state of the
staking ledger `stk`, which is kept apart from the storage of the slashing contract. -/
structure World (L : Type) where
  base : BaseDB
  storage : Bytes → GoBytes
  txHash : Hash
  ledger : L
  trace : List Event

/-- Parameters of the plugin that are defined outside of the file: the constants of `xcom`,
`xutil.IsElection`, the injected decoder, the operations of the staking ledger `stk` on its
state, and signer recovery (`crypto.SigToPub` followed by `discover.PubkeyID`). -/
structure Env (L : Type) where
  ConsensusSize : Nat
  ConsValidatorNum : Nat
  IsElection : Nat → Bool
  decodeEvidence : String → Res (List Evidence)
  GetCandidateONRound : L → Hash → Nat → Res (List Candidate)
  GetCandidateInfo : L → Hash → Address → Res Candidate
  SlashCandidates : L → SlashCall → Res Unit × L
  SigToPub : Bytes → Bytes → Res NodeID

variable {L : Type}

/-- Append one event to the ghost trace. -/
def World.emit (w : World L) (ev : Event) : World L :=
  { w with trace := w.trace ++ [ev] }

/-- Error `snapshotdb.ErrNotFound`. -/
def ErrNotFound : Err := .plain "snapshotDB: not found"

/-- Modelled from the spec: `get(branch, key)` of the store; writes of the base layer are
visible to every branch, and a missing key is the distinguished result `ErrNotFound`. -/
def World.Get (w : World L) (blockHash : Hash) (key : Bytes) : Res Bytes × World L :=
  match w.base.lookup key with
  | some value => (.ok value, w.emit (.dbGet blockHash key))
  | none => (.err ErrNotFound, w.emit (.dbGet blockHash key))

/-- Modelled from the spec: `put-base(key, value)` of the store. -/
def World.PutBaseDB (w : World L) (key value : Bytes) : Option Err × World L :=
  (none, { w with base := w.base.insert key value, trace := w.trace ++ [.dbPut key value] })

/-- Modelled from the spec: `delete-base(key)` of the store. -/
def World.DelBaseDB (w : World L) (key : Bytes) : Option Err × World L :=
  (none, { w with base := w.base.erase key, trace := w.trace ++ [.dbDel key] })

/-- Order of the keys of the store: lexicographic on bytes. -/
def keyLE (a b : Bytes × Bytes) : Prop := a.1 ≤ b.1

instance : DecidableRel keyLE := fun a b => inferInstanceAs (Decidable (a.1 ≤ b.1))

/-- Modelled from the spec: the entries that the iterator of `walk-base(prefix, visitor)`
yields: the key/value pairs of the base layer whose key starts with the prefix
(`util.BytesPrefix`), in key order, as they are when the walk starts. -/
def iterEntries (base : BaseDB) (pfx : Bytes) : List (Bytes × Bytes) :=
  ((base.entries.map fun e => (e.1, e.2)).filter fun e => pfx.isPrefixOf e.1).insertionSort keyLE

/-- Contract-scoped read `stateDB.GetState(vm.SlashingContractAddr, key)`. -/
def World.GetState (w : World L) (key : Bytes) : GoBytes := w.storage key

/-- Contract-scoped write `stateDB.SetState(vm.SlashingContractAddr, key, value)` of a non-nil
value; a later `GetState` of the key returns the value. -/
def World.SetState (w : World L) (key value : Bytes) : World L :=
  { w with storage := fun k => if k = key then some value else w.storage k,
           trace := w.trace ++ [.setState key value] }

/-- Ledger lookup `stk.GetCandidateInfo(blockHash, addr)`. -/
def World.GetCandidateInfo (env : Env L) (w : World L) (blockHash : Hash) (addr : Address) :
    Res Candidate × World L :=
  (env.GetCandidateInfo w.ledger blockHash addr, w.emit (.getCandidateInfo blockHash addr))

/-- Ledger query `stk.GetCandidateONRound(blockHash, blockNumber, 1, QueryStartIrr)`. -/
def World.GetCandidateONRound (env : Env L) (w : World L) (blockHash : Hash)
    (blockNumber : Nat) : Res (List Candidate) × World L :=
  (env.GetCandidateONRound w.ledger blockHash blockNumber,
    w.emit (.getCandidateONRound blockHash blockNumber))

/-- Whether a Go call did not return normally with a nil error. -/
def Res.failed {α : Type} : Res α → Bool
  | .ok _ => false
  | _ => true

/-- Ledger operation `stk.SlashCandidates(state, blockHash, blockNumber, nodeId, amount,
isDelete, reason)`; the trace records whether the call failed. -/
def World.SlashCandidates (env : Env L) (w : World L) (call : SlashCall) :
    Res Unit × World L :=
  ((env.SlashCandidates w.ledger call).1,
    { w with ledger := (env.SlashCandidates w.ledger call).2,
             trace := w.trace ++ [.slashCandidates call (env.SlashCandidates w.ledger call).1.failed] })

/-! ## The plugin (lines 68-288) -/

/-- Pre-processing hook (lines 68-70). -/
def BeginBlock (w : World L) (_blockHash : Hash) (_header : Header) : Res Unit × World L :=
  (.ok (), w)

/-- Signer of a header (lines 322-330). The slice expression `header.Extra[32:97]` panics
when `Extra` is shorter than 97 bytes. -/
def parseNodeId (env : Env L) (header : Header) : Res NodeID :=
  if header.Extra.length < 97 then .panic
  else
    let sign := (header.Extra.drop 32).take 65
    match env.SigToPub header.SealHash.Bytes sign with
    | .ok pk => .ok pk
    | .err e => .err e
    | .panic => .panic

/-- Current-window count of the signer of a header (lines 137-156); an absent entry is the
count zero. -/
def getBlockAmount (env : Env L) (w : World L) (blockHash : Hash) (header : Header) :
    Res Nat × World L :=
  match parseNodeId env header with
  | .err e => (.err e, w)
  | .panic => (.panic, w)
  | .ok nodeId =>
    match w.Get blockHash (curKey nodeId.Bytes) with
    | (.panic, w1) => (.panic, w1)
    | (.err e, w1) => if e = ErrNotFound then (.ok 0, w1) else (.err e, w1)
    | (.ok value, w1) =>
      match rlpDecodeUint16 value with
      | .ok amount => (.ok amount, w1)
      | .err e => (.err e, w1)
      | .panic => (.panic, w1)

/-- Increment of the current-window count of the signer of a header (lines 158-178);
`value++` is an increment of a `uint16`. -/
def setBlockAmount (env : Env L) (w : World L) (blockHash : Hash) (header : Header) :
    Res Unit × World L :=
  match parseNodeId env header with
  | .err e => (.err e, w)
  | .panic => (.panic, w)
  | .ok nodeId =>
    match getBlockAmount env w blockHash header with
    | (.err e, w1) => (.err e, w1)
    | (.panic, w1) => (.panic, w1)
    | (.ok value, w1) =>
      let value := (value + 1) % 65536
      let enValue := rlpEncodeUint16 value
      match w1.PutBaseDB (curKey nodeId.Bytes) enValue with
      | (some e, w2) => (.err e, w2)
      | (none, w2) => (.ok (), w2)

/-- Visitor of the first walk of `switchEpoch` (lines 184-190): delete every entry the
iterator yields. -/
def switchEpochDel : List (Bytes × Bytes) → World L → Option Err × World L
  | [], w => (none, w)
  | (key, _) :: rest, w =>
    match w.DelBaseDB key with
    | (some e, w1) => (some e, w1)
    | (none, w1) => switchEpochDel rest w1

/-- Visitor of the second walk of `switchEpoch` (lines 197-208): delete every entry the
iterator yields and store its value under the previous-window key of the same suffix. -/
def switchEpochMove : List (Bytes × Bytes) → World L → Option Err × World L
  | [], w => (none, w)
  | (key, value) :: rest, w =>
    match w.DelBaseDB key with
    | (some e, w1) => (some e, w1)
    | (none, w1) =>
      let key := preKey (key.drop curAbnormalPrefix.length)
      match w1.PutBaseDB key value with
      | (some e, w2) => (some e, w2)
      | (none, w2) => switchEpochMove rest w2

/-- Rotation of the counter windows (lines 180-215). -/
def switchEpoch (w : World L) (_blockHash : Hash) : Option Err × World L :=
  let it := iterEntries w.base preAbnormalPrefix
  match switchEpochDel it (w.emit (.dbWalk preAbnormalPrefix)) with
  | (some e, w1) => (some e, w1)
  | (none, w1) =>
    let it := iterEntries w1.base curAbnormalPrefix
    match switchEpochMove it (w1.emit (.dbWalk curAbnormalPrefix)) with
    | (some e, w2) => (some e, w2)
    | (none, w2) => (none, w2)

/-- Confirmation hook (lines 121-135), for a round length `ConsensusSize` above zero (the
remainder of Go panics on a zero divisor). -/
def Confirmed (env : Env L) (w : World L) (block : Block) : Res Unit × World L :=
  if block.NumberU64 % env.ConsensusSize = 1 ∧ block.NumberU64 > 1 then
    match switchEpoch w block.Hash with
    | (some e, w1) => (.err e, w1)
    | (none, w1) => setBlockAmount env w1 block.Hash block.Header
  else setBlockAmount env w block.Hash block.Header

/-- Visitor of `GetPreNodeAmount` (lines 221-235); the map `result` is an association list in
which the entry written last for a key comes first. -/
def getPreNodeAmountLoop : List (Bytes × Bytes) → List (NodeID × Nat) →
    Res (List (NodeID × Nat))
  | [], result => .ok result
  | (key, value) :: rest, result =>
    match rlpDecodeUint16 value with
    | .err e => .err e
    | .panic => .panic
    | .ok amount =>
      match getNodeId preAbnormalPrefix key with
      | .err e => .err e
      | .panic => .panic
      | .ok nodeId => getPreNodeAmountLoop rest ((nodeId, amount) :: result)

/-- Get the consensus rate of all nodes in the previous round (lines 218-242). -/
def GetPreNodeAmount (w : World L) : Res (List (NodeID × Nat)) × World L :=
  (getPreNodeAmountLoop (iterEntries w.base preAbnormalPrefix) [],
    w.emit (.dbWalk preAbnormalPrefix))

/-- Decision taken for one validator in the loop of `EndBlock` (lines 84-106): the values of
`isSlash`, `rate` and `isDelete` when line 107 is reached. -/
def classify (env : Env L) (result : List (NodeID × Nat)) (nodeId : NodeID) :
    Bool × Nat × Bool :=
  match result.lookup nodeId with
  | some amount =>
    if isAbnormal env.ConsensusSize env.ConsValidatorNum amount then
      if amount ≤ blockAmountLow ∧ amount > blockAmountHigh then (true, blockAmountLowSlashing, false)
      else if amount ≤ blockAmountHigh then (true, blockAmountHighSlashing, true)
      else (false, 0, false)
    else (false, 0, false)
  | none => (true, blockAmountHighSlashing, false)

/-- Loop over the validator list in `EndBlock` (lines 83-115). -/
def endBlockLoop (env : Env L) (blockHash : Hash) (number : Nat) (result : List (NodeID × Nat)) :
    List Candidate → World L → Res Unit × World L
  | [], w => (.ok (), w)
  | validator :: rest, w =>
    let nodeId := validator.NodeId
    match classify env result nodeId with
    | (isSlash, rate, isDelete) =>
      if isSlash ∧ rate > 0 then
        match calcSlashAmount validator rate with
        | none => (.panic, w)
        | some amount =>
          match w.SlashCandidates env ⟨blockHash, number, nodeId, amount, isDelete, .LowRatio⟩ with
          | (.err e, w1) => (.err e, w1)
          | (.panic, w1) => (.panic, w1)
          | (.ok _, w1) => endBlockLoop env blockHash number result rest w1
      else endBlockLoop env blockHash number result rest w

/-- Post-processing hook (lines 72-119). The Go result `(true, nil)` is `ok`, the result
`(false, err)` is `err`. -/
def EndBlock (env : Env L) (w : World L) (blockHash : Hash) (header : Header) :
    Res Unit × World L :=
  if env.IsElection header.Number ∧ header.Number > env.ConsensusSize then
    match GetPreNodeAmount w with
    | (.err e, w1) => (.err e, w1)
    | (.panic, w1) => (.panic, w1)
    | (.ok result, w1) =>
      match w1.GetCandidateONRound env blockHash header.Number with
      | (.err e, w2) => (.err e, w2)
      | (.panic, w2) => (.panic, w2)
      | (.ok validatorList, w2) => endBlockLoop env blockHash header.Number result validatorList w2
  else (.ok (), w)

/-- Record of a performed double-sign slash (lines 282-284). -/
def putSlashResult (addr : Address) (blockNumber : Nat) (etype : Int) (w : World L) : World L :=
  w.SetState (mutiSignKey addr blockNumber etype) w.txHash.Bytes

/-- Stored record of a double-sign slash (lines 286-288). -/
def getSlashResult (addr : Address) (blockNumber : Nat) (etype : Int) (w : World L) : GoBytes :=
  w.GetState (mutiSignKey addr blockNumber etype)

/-- Body of the loop of `Slash` for one evidence (lines 252-268). -/
def slashEvidence (env : Env L) (blockHash : Hash) (blockNumber : Nat) (evidence : Evidence)
    (w : World L) : Res Unit × World L :=
  let w := w.emit (.validate evidence)
  match evidence.Validate with
  | some e => (.err e, w)
  | none =>
    let value := getSlashResult evidence.Address evidence.BlockNumber evidence.EType w
    if value.len > 0 then (.err (NewBizError errSlashExist.Error), w)
    else
      match w.GetCandidateInfo env blockHash evidence.Address with
      | (.err e, w1) => (.err e, w1)
      | (.panic, w1) => (.panic, w1)
      | (.ok candidate, w1) =>
        match calcSlashAmount candidate duplicateSignLowSlashing with
        | none => (.panic, w1)
        | some amount =>
          match w1.SlashCandidates env
              ⟨blockHash, blockNumber, candidate.NodeId, amount, true, .DoubleSign⟩ with
          | (.err e, w2) => (.err e, w2)
          | (.panic, w2) => (.panic, w2)
          | (.ok _, w2) =>
            (.ok (), putSlashResult evidence.Address evidence.BlockNumber evidence.EType w2)

/-- Loop of `Slash` over the decoded evidences (lines 251-269). -/
def slashLoop (env : Env L) (blockHash : Hash) (blockNumber : Nat) :
    List Evidence → World L → Res Unit × World L
  | [], w => (.ok (), w)
  | evidence :: rest, w =>
    match slashEvidence env blockHash blockNumber evidence w with
    | (.err e, w1) => (.err e, w1)
    | (.panic, w1) => (.panic, w1)
    | (.ok _, w1) => slashLoop env blockHash blockNumber rest w1

/-- Double-sign evidence protocol (lines 244-272). -/
def Slash (env : Env L) (data : String) (blockHash : Hash) (blockNumber : Nat) (w : World L) :
    Res Unit × World L :=
  match env.decodeEvidence data with
  | .err e => (.err e, w)
  | .panic => (.panic, w)
  | .ok evidences =>
    if evidences.length > 0 then slashLoop env blockHash blockNumber evidences w
    else (.ok (), w)

/-- Duplicate-sign query (lines 274-280): the results are the three Go results, then the
state. -/
def CheckMutiSign (addr : Address) (blockNumber : Nat) (etype : Int) (w : World L) :
    (Bool × GoBytes × Option Err) × World L :=
  match getSlashResult addr blockNumber etype w with
  | some value => ((true, some value, none), w)
  | none => ((false, none, none), w)

/-! ## Concrete collaborators, for closed instances of the theorems -/

/-- Node identity made of 64 equal bytes. -/
def demoNode (b : Nat) : NodeID := ⟨List.replicate 64 b, by simp⟩

/-- Hash made of 32 equal bytes. -/
def demoHash (b : Nat) : Hash := ⟨List.replicate 32 b, by simp⟩

/-- Address made of 20 equal bytes. -/
def demoAddr (b : Nat) : Address := ⟨List.replicate 20 b, by simp⟩

/-- Candidate whose whole stake is liquid. -/
def demoCandidate (b : Nat) (stake : Int) : Candidate := ⟨demoNode b, stake, 0, 0, 0⟩

/-- Collaborators for round length `R` and validator-set size `V`: the ledger state counts the
performed slashes, every slash succeeds, the active validators are `validators`, an address
resolves to the first of them, the decoder returns `evidences`, every header is signed by
`demoNode 1`, and the election block is the block 20 before the end of the round. -/
def demoEnv (R V : Nat) (validators : List Candidate) (evidences : List Evidence) : Env Nat where
  ConsensusSize := R
  ConsValidatorNum := V
  IsElection := fun n => decide ((n + 20) % R = 0)
  decodeEvidence := fun _ => .ok evidences
  GetCandidateONRound := fun _ _ _ => .ok validators
  GetCandidateInfo := fun _ _ _ =>
    match validators with
    | c :: _ => .ok c
    | [] => .err (.plain "candidate not found")
  SlashCandidates := fun l _ => (.ok (), l + 1)
  SigToPub := fun _ _ => .ok (demoNode 1)

/-- World with the given counter store, a contract state in which `GetState` returns `absent`
for every key, transaction identifier `demoHash 9`, no slash performed and an empty trace. -/
def demoWorld (base : BaseDB) (absent : GoBytes) : World Nat :=
  ⟨base, fun _ => absent, demoHash 9, 0, []⟩

/-- Valid evidence of type 1 against `demoAddr b` for a double sign at `blockNumber`. -/
def demoEvidence (b : Nat) (blockNumber : Nat) : Evidence :=
  ⟨demoAddr b, blockNumber, 1, [], none⟩

/-- Header number `n` with a well-sized `Extra`. -/
def demoHeader (n : Nat) : Header := ⟨n, List.replicate 97 0, demoHash 2⟩

/-- Collaborators as `demoEnv 250 25`, with a ledger that refuses to slash `demoNode 4`. -/
def demoFailingEnv (validators : List Candidate) : Env Nat :=
  { demoEnv 250 25 validators [] with
    SlashCandidates := fun l call =>
      if call.nodeId = demoNode 4 then (.err (.plain "slash failed"), l) else (.ok (), l + 1) }

/-- Block number `n`, with the hash `demoHash n`. -/
def demoBlock (n : Nat) : Block := ⟨demoHeader n, demoHash n⟩

/-! ## Notions used in the statements -/

/-- Successive calls of `setBlockAmount`, one for each block hash and header of the list, as
long as they return without error. -/
def setBlockAmounts (env : Env L) : List (Hash × Header) → World L → Res Unit × World L
  | [], w => (.ok (), w)
  | (blockHash, header) :: rest, w =>
    match setBlockAmount env w blockHash header with
    | (.ok _, w1) => setBlockAmounts env rest w1
    | r => r

/-- The store after the deletions of the first walk of `switchEpoch`. -/
def delKeys (l : List (Bytes × Bytes)) (b : BaseDB) : BaseDB :=
  l.foldl (fun b e => b.erase e.1) b

/-- The store after the moves of the second walk of `switchEpoch`. -/
def moveKeys (l : List (Bytes × Bytes)) (b : BaseDB) : BaseDB :=
  l.foldl (fun b e => (b.erase e.1).insert (preKey (e.1.drop curAbnormalPrefix.length)) e.2) b

/-- The current-window entry of the validator `id` stands for the count `c`: either there is
no entry and `c` is zero, or the entry is the serialization of `c`. -/
def counterIs (w : World L) (id : NodeID) (c : Nat) : Prop :=
  c < 65536 ∧
  ((c = 0 ∧ w.base.lookup (curKey id.Bytes) = none) ∨
    w.base.lookup (curKey id.Bytes) = some (rlpEncodeUint16 c))

/-- Total stake of a candidate: the sum of its four stake components. -/
def Candidate.total (c : Candidate) : Int :=
  c.Released + c.ReleasedHes + c.RestrictingPlan + c.RestrictingPlanHes

/-- The calls of the ledger operation `SlashCandidates` recorded in a trace, in order. -/
def slashCalls : List Event → List SlashCall
  | [] => []
  | .slashCandidates call _ :: t => call :: slashCalls t
  | _ :: t => slashCalls t

/-- The call of the ledger operation `SlashCandidates` that `Slash` makes for a resolved
candidate (line 262). -/
def doubleSignCall (blockHash : Hash) (blockNumber : Nat) (c : Candidate) : SlashCall :=
  ⟨blockHash, blockNumber, c.NodeId, c.total / (duplicateSignLowSlashing : Int), true,
    .DoubleSign⟩

/-- An evidence that passes `Validate`, has no stored record in the state `w` (the stored
value has length zero), resolves to the candidate `c` and is slashed by the ledger without
error. -/
def itemSucceeds (env : Env L) (blockHash : Hash) (blockNumber : Nat) (e : Evidence)
    (c : Candidate) (w : World L) : Prop :=
  e.Validate = none ∧
  (getSlashResult e.Address e.BlockNumber e.EType w).len = 0 ∧
  env.GetCandidateInfo w.ledger blockHash e.Address = .ok c ∧
  (env.SlashCandidates w.ledger (doubleSignCall blockHash blockNumber c)).1 = .ok ()

/-- The calls made for an evidence that is slashed with success, in order. -/
def slashedTrace (blockHash : Hash) (blockNumber : Nat) (e : Evidence) (c : Candidate)
    (tx : Hash) : List Event :=
  [.validate e, .getCandidateInfo blockHash e.Address,
   .slashCandidates (doubleSignCall blockHash blockNumber c) false,
   .setState (mutiSignKey e.Address e.BlockNumber e.EType) tx.Bytes]

/-- The state after an evidence has been slashed with success: the ledger has performed the
slash, and the record of the evidence holds the identifier of the current transaction. -/
def slashedWorld (env : Env L) (blockHash : Hash) (blockNumber : Nat) (e : Evidence)
    (c : Candidate) (w : World L) : World L where
  base := w.base
  storage := fun k =>
    if k = mutiSignKey e.Address e.BlockNumber e.EType then some w.txHash.Bytes else w.storage k
  txHash := w.txHash
  ledger := (env.SlashCandidates w.ledger (doubleSignCall blockHash blockNumber c)).2
  trace := w.trace ++ slashedTrace blockHash blockNumber e c w.txHash

/-- Every evidence of the list, taken with the candidate it resolves to, succeeds in the state
left by the evidences before it. -/
def batchSucceeds (env : Env L) (blockHash : Hash) (blockNumber : Nat) :
    List (Evidence × Candidate) → World L → Prop
  | [], _ => True
  | (e, c) :: rest, w =>
    itemSucceeds env blockHash blockNumber e c w ∧
      batchSucceeds env blockHash blockNumber rest (slashedWorld env blockHash blockNumber e c w)

/-- The state left by a list of evidences that are slashed with success. -/
def batchWorld (env : Env L) (blockHash : Hash) (blockNumber : Nat) :
    List (Evidence × Candidate) → World L → World L
  | [], w => w
  | (e, c) :: rest, w =>
    batchWorld env blockHash blockNumber rest (slashedWorld env blockHash blockNumber e c w)

/-- The calls made for a list of evidences that are slashed with success. -/
def batchTrace (blockHash : Hash) (blockNumber : Nat) (tx : Hash) :
    List (Evidence × Candidate) → List Event
  | [] => []
  | (e, c) :: rest =>
    slashedTrace blockHash blockNumber e c tx ++ batchTrace blockHash blockNumber tx rest

/-- The four ways in which an evidence fails in the state `w`, with the error of each:
validation error, existing record, candidate not found, failure of the ledger's slash. -/
def itemFails (env : Env L) (blockHash : Hash) (blockNumber : Nat) (e : Evidence)
    (w : World L) (err : Err) : Prop :=
  e.Validate = some err ∨
  (e.Validate = none ∧ 0 < (getSlashResult e.Address e.BlockNumber e.EType w).len ∧
    err = NewBizError errSlashExist.Error) ∨
  (e.Validate = none ∧ (getSlashResult e.Address e.BlockNumber e.EType w).len = 0 ∧
    env.GetCandidateInfo w.ledger blockHash e.Address = .err err) ∨
  (e.Validate = none ∧ (getSlashResult e.Address e.BlockNumber e.EType w).len = 0 ∧
    ∃ c, env.GetCandidateInfo w.ledger blockHash e.Address = .ok c ∧
      (env.SlashCandidates w.ledger (doubleSignCall blockHash blockNumber c)).1 = .err err)

/-- The encoding that the specification calls `BigEndianUint64`: eight bytes, of which the
byte at position `i` (counted from the left) is the digit of weight `256 ^ (7 - i)`. -/
def BigEndianUint64 (v : Nat) : Bytes := (List.range 8).map fun i => v / 256 ^ (7 - i) % 256

/-- The number that a byte string denotes when read with the most significant byte first. -/
def bigEndianValue (bs : Bytes) : Nat := bs.foldl (fun acc b => acc * 256 + b) 0

/-- None of the collaborators of the plugin panics: the injected decoder and the three
operations of the staking ledger return a value or an error. -/
def collaboratorsNeverPanic (env : Env L) : Prop :=
  (∀ data, env.decodeEvidence data ≠ .panic) ∧
  (∀ l blockHash n, env.GetCandidateONRound l blockHash n ≠ .panic) ∧
  (∀ l blockHash addr, env.GetCandidateInfo l blockHash addr ≠ .panic) ∧
  (∀ l call, (env.SlashCandidates l call).1 ≠ .panic)

/-- The slash call that the classification of lines 84-107 prescribes for a validator: a call
when `isSlash` holds and the rate is above zero, no call otherwise. -/
def policyCall (env : Env L) (blockHash : Hash) (number : Nat) (result : List (NodeID × Nat))
    (validator : Candidate) : Option SlashCall :=
  if (classify env result validator.NodeId).1 = true ∧
      0 < (classify env result validator.NodeId).2.1 then
    some ⟨blockHash, number, validator.NodeId,
      validator.total / ((classify env result validator.NodeId).2.1 : Int),
      (classify env result validator.NodeId).2.2, .LowRatio⟩
  else none

/-- The state after a successful call of the ledger's slash operation. -/
def policyStep (env : Env L) (w : World L) (call : SlashCall) : World L :=
  { w with ledger := (env.SlashCandidates w.ledger call).2,
           trace := w.trace ++ [.slashCandidates call false] }

/-- The state left by the loop of `EndBlock` over a list of validators whose slash calls all
succeed. -/
def policyWorld (env : Env L) (blockHash : Hash) (number : Nat) (result : List (NodeID × Nat)) :
    List Candidate → World L → World L
  | [], w => w
  | validator :: rest, w =>
    match policyCall env blockHash number result validator with
    | none => policyWorld env blockHash number result rest w
    | some call => policyWorld env blockHash number result rest (policyStep env w call)

/-- Every slash call that the classification prescribes for a validator of the list succeeds, in
the state left by the validators before it. -/
def policySucceeds (env : Env L) (blockHash : Hash) (number : Nat)
    (result : List (NodeID × Nat)) : List Candidate → World L → Prop
  | [], _ => True
  | validator :: rest, w =>
    match policyCall env blockHash number result validator with
    | none => policySucceeds env blockHash number result rest w
    | some call =>
      (env.SlashCandidates w.ledger call).1 = .ok () ∧
        policySucceeds env blockHash number result rest (policyStep env w call)

/-- The count stored under a key of the counter store, an absent entry counting as zero: what
`getBlockAmount` decodes (lines 143-155). -/
def storedCount (b : BaseDB) (key : Bytes) : Res Nat :=
  match b.lookup key with
  | none => .ok 0
  | some value => rlpDecodeUint16 value

/-- The entry of the counter store for a count: no entry for zero, the serialization of the
count otherwise. -/
def encCount (c : Nat) : Option Bytes := if c = 0 then none else some (rlpEncodeUint16 c)

/-- The window of the counter store under a key prefix holds the production counts of the
list `l` of producers, and nothing else: for every suffix, the entry is that of the number of
elements of `l` whose bytes are the suffix. -/
def windowIs (b : BaseDB) (pfx : Bytes) (l : List NodeID) : Prop :=
  ∀ suffix : Bytes, b.lookup (pfx ++ suffix) = encCount (l.countP fun v => decide (v.Bytes = suffix))

/-- The store after the two walks of `switchEpoch`. -/
def rotate (b : BaseDB) : BaseDB :=
  moveKeys (iterEntries (delKeys (iterEntries b preAbnormalPrefix) b) curAbnormalPrefix)
    (delKeys (iterEntries b preAbnormalPrefix) b)

/-- Successive calls of `Confirmed`, one for each block of the list, as long as they return
without error. -/
def confirmAll (env : Env L) : List Block → World L → Res Unit × World L
  | [], w => (.ok (), w)
  | block :: rest, w =>
    match Confirmed env w block with
    | (.ok _, w1) => confirmAll env rest w1
    | r => r

/-- The blocks of the list are numbered `n + 1`, `n + 2`, ... and each is signed by the
producer listed with it. -/
def chain (env : Env L) : Nat → List (Block × NodeID) → Prop
  | _, [] => True
  | n, (block, p) :: rest =>
    block.NumberU64 = n + 1 ∧ parseNodeId env block.Header = .ok p ∧ chain env (n + 1) rest

/-- First block of the round of block `n` for round length `R`: `floor((n - 1) / R) * R + 1`. -/
def roundStart (R n : Nat) : Nat := (n - 1) / R * R + 1

/-- Producers of the blocks numbered `lo` to `hi`, when block `i` is produced by the element of
`ps` at position `i - 1`. -/
def producedIn (ps : List NodeID) (lo hi : Nat) : List NodeID := (ps.take hi).drop (lo - 1)

/-- Producers of the blocks of the round of the last block, from the first block of this round
to the last block. -/
def curList (R : Nat) (ps : List NodeID) : List NodeID :=
  producedIn ps (roundStart R ps.length) ps.length

/-- Producers of the blocks of the round before the round of the last block, when there is
one. -/
def preList (R : Nat) (ps : List NodeID) : List NodeID :=
  if ps.length > R then
    producedIn ps (roundStart R ps.length - R) (roundStart R ps.length - 1)
  else []

/-! ## Penalty arithmetic -/

theorem calcSlashAmount_eq (c : Candidate) (rate : Nat) (hr : 0 < rate) :
    calcSlashAmount c rate = some (c.total / (rate : Int)) := by
  have h : rate ≠ 0 := Nat.pos_iff_ne_zero.mp hr
  simp [calcSlashAmount, Candidate.total, h]
  rfl

/-- C6. For every rate above zero `calcSlashAmount` returns the floor of the quotient of the
sum of the four stake components by the rate, which is the only integer `a` with
`a * rate ≤ sum < (a + 1) * rate`; a sum of 1000 at rate 20 gives 50, a sum of 999 at rate 20
gives 49, and a sum of 0 gives 0. It holds for all integer stake components, in particular for
non-negative ones. -/
theorem calcSlashAmount_floor (c : Candidate) (rate : Nat) (hr : 0 < rate) :
    ∃ a : Int, calcSlashAmount c rate = some a ∧
      a = ⌊((c.Released + c.ReleasedHes + c.RestrictingPlan + c.RestrictingPlanHes : Int) : ℚ)
            / (rate : ℚ)⌋ ∧
      a * rate ≤ c.Released + c.ReleasedHes + c.RestrictingPlan + c.RestrictingPlanHes ∧
      c.Released + c.ReleasedHes + c.RestrictingPlan + c.RestrictingPlanHes < (a + 1) * rate ∧
      (∀ b : Int, b * rate ≤ c.Released + c.ReleasedHes + c.RestrictingPlan + c.RestrictingPlanHes →
        c.Released + c.ReleasedHes + c.RestrictingPlan + c.RestrictingPlanHes < (b + 1) * rate →
        b = a) ∧
      (c.Released + c.ReleasedHes + c.RestrictingPlan + c.RestrictingPlanHes = 1000 → rate = 20 →
        a = 50) ∧
      (c.Released + c.ReleasedHes + c.RestrictingPlan + c.RestrictingPlanHes = 999 → rate = 20 →
        a = 49) ∧
      (c.Released + c.ReleasedHes + c.RestrictingPlan + c.RestrictingPlanHes = 0 → a = 0) := by
  have hpos : (0 : Int) < (rate : Int) := by exact_mod_cast hr
  refine ⟨c.total / (rate : Int), calcSlashAmount_eq c rate hr, ?_, ?_, ?_, ?_, ?_, ?_, ?_⟩
  · exact (Rat.floor_intCast_div_natCast _ rate).symm
  · exact Int.ediv_mul_le _ (ne_of_gt hpos)
  · exact Int.lt_ediv_add_one_mul_self _ hpos
  · intro b hb1 hb2
    have hq : c.total / (rate : Int) = b ∧ c.total % (rate : Int) = c.total - rate * b := by
      rw [Int.ediv_emod_unique hpos]
      refine ⟨by ring, ?_, ?_⟩
      · have : (rate : Int) * b = b * rate := by ring
        unfold Candidate.total
        omega
      · have : (b + 1) * (rate : Int) = rate * b + rate := by ring
        unfold Candidate.total
        omega
    exact hq.1.symm
  · intro hs h20
    subst h20
    show c.total / ((20 : Nat) : Int) = 50
    unfold Candidate.total
    rw [hs]
    rfl
  · intro hs h20
    subst h20
    show c.total / ((20 : Nat) : Int) = 49
    unfold Candidate.total
    rw [hs]
    rfl
  · intro hs
    show c.total / (rate : Int) = 0
    unfold Candidate.total
    rw [hs]
    simp

/-- Witness of C6: a candidate with stake 400 + 300 + 200 + 100 at rate 20. -/
theorem calcSlashAmount_floor_witness :
    0 < 20 ∧ ∃ a : Int,
      calcSlashAmount ⟨⟨List.replicate 64 1, by simp⟩, 400, 300, 200, 100⟩ 20 = some a ∧
      a = 50 :=
  ⟨by decide, by
    obtain ⟨a, h1, _, _, _, _, h6, _, _⟩ :=
      calcSlashAmount_floor ⟨⟨List.replicate 64 1, by simp⟩, 400, 300, 200, 100⟩ 20 (by decide)
    exact ⟨a, h1, h6 (by decide) rfl⟩⟩

/-! ## Under-production policy -/

theorem SlashCandidates_trace (env : Env L) (w : World L) (call : SlashCall) :
    (w.SlashCandidates env call).2.trace
      = w.trace ++ [.slashCandidates call (w.SlashCandidates env call).1.failed] := rfl

theorem endBlockLoop_skip (env : Env L) (blockHash : Hash) (number : Nat)
    (result : List (NodeID × Nat)) (validator : Candidate) (rest : List Candidate) (w : World L)
    (rate : Nat) (isDelete : Bool)
    (h : classify env result validator.NodeId = (false, rate, isDelete)) :
    endBlockLoop env blockHash number result (validator :: rest) w
      = endBlockLoop env blockHash number result rest w := by
  simp [endBlockLoop, h]

theorem endBlockLoop_slash (env : Env L) (blockHash : Hash) (number : Nat)
    (result : List (NodeID × Nat)) (validator : Candidate) (rest : List Candidate) (w : World L)
    (rate : Nat) (isDelete : Bool) (hr : 0 < rate)
    (h : classify env result validator.NodeId = (true, rate, isDelete)) :
    endBlockLoop env blockHash number result (validator :: rest) w
      = match w.SlashCandidates env
          ⟨blockHash, number, validator.NodeId, validator.total / (rate : Int), isDelete,
            .LowRatio⟩ with
        | (.err e, w1) => (.err e, w1)
        | (.panic, w1) => (.panic, w1)
        | (.ok _, w1) => endBlockLoop env blockHash number result rest w1 := by
  simp [endBlockLoop, h, hr, calcSlashAmount_eq validator rate hr]

theorem endBlockLoop_slash_trace (env : Env L) (blockHash : Hash) (number : Nat)
    (result : List (NodeID × Nat)) (validator : Candidate) (w : World L)
    (rate : Nat) (isDelete : Bool) (hr : 0 < rate)
    (h : classify env result validator.NodeId = (true, rate, isDelete)) :
    ∃ amount, calcSlashAmount validator rate = some amount ∧
      (endBlockLoop env blockHash number result [validator] w).2.trace
        = w.trace ++ [.slashCandidates
            ⟨blockHash, number, validator.NodeId, amount, isDelete, .LowRatio⟩
            (env.SlashCandidates w.ledger
              ⟨blockHash, number, validator.NodeId, amount, isDelete, .LowRatio⟩).1.failed] := by
  refine ⟨validator.total / (rate : Int), calcSlashAmount_eq validator rate hr, ?_⟩
  rw [endBlockLoop_slash env blockHash number result validator [] w rate isDelete hr h]
  rcases hs : w.SlashCandidates env
    ⟨blockHash, number, validator.NodeId, validator.total / (rate : Int), isDelete, .LowRatio⟩
    with ⟨r, w1⟩
  have ht := SlashCandidates_trace env w
    ⟨blockHash, number, validator.NodeId, validator.total / (rate : Int), isDelete, .LowRatio⟩
  rw [hs] at ht
  have hr1 : r = (env.SlashCandidates w.ledger
      ⟨blockHash, number, validator.NodeId, validator.total / (rate : Int), isDelete,
        .LowRatio⟩).1 := by
    have := congrArg Prod.fst hs
    simpa [World.SlashCandidates] using this.symm
  rw [← hr1]
  cases r <;> simpa [endBlockLoop] using ht

theorem endBlockLoop_cons (env : Env L) (blockHash : Hash) (number : Nat)
    (result : List (NodeID × Nat)) (validator : Candidate) (rest : List Candidate) (w : World L) :
    endBlockLoop env blockHash number result (validator :: rest) w
      = match endBlockLoop env blockHash number result [validator] w with
        | (.ok _, w1) => endBlockLoop env blockHash number result rest w1
        | r => r := by
  rcases hcl : classify env result validator.NodeId with ⟨isSlash, rate, isDelete⟩
  by_cases hc : isSlash = true ∧ rate > 0
  · cases ha : calcSlashAmount validator rate with
    | none => simp [endBlockLoop, hcl, hc, ha]
    | some amount =>
      rcases hs : w.SlashCandidates env
        ⟨blockHash, number, validator.NodeId, amount, isDelete, .LowRatio⟩ with ⟨r, w1⟩
      cases r <;> simp [endBlockLoop, hcl, hc, ha, hs]
  · simp [endBlockLoop, hcl, hc]

/-- C2. In the loop of `EndBlock`, an active validator with a previous-window count `c` is
abnormal exactly when `c < ConsensusSize / ConsValidatorNum`; when it is not abnormal, or is
abnormal with `c > blockAmountLow`, the loop makes no call for it and leaves the state as it
is; when it is abnormal with `blockAmountHigh < c ≤ blockAmountLow` the loop makes exactly one
slash call, with the amount at rate `blockAmountLowSlashing`, removal flag false and reason
`LowRatio`; when it is abnormal with `c ≤ blockAmountHigh` the loop makes exactly one slash
call, with the amount at rate `blockAmountHighSlashing`, removal flag true and reason
`LowRatio` (the trace records with each call whether the ledger failed). The last part places
the validator in the loop: the validators after it are treated in the state it leaves, unless
its slash call fails. -/
theorem endBlock_classification (env : Env L) (result : List (NodeID × Nat))
    (validator : Candidate) (c : Nat) (blockHash : Hash) (number : Nat) (rest : List Candidate)
    (w : World L) (_hV : 0 < env.ConsValidatorNum)
    (hc : result.lookup validator.NodeId = some c) :
    (isAbnormal env.ConsensusSize env.ConsValidatorNum c = true
      ↔ c < env.ConsensusSize / env.ConsValidatorNum) ∧
    (¬ c < env.ConsensusSize / env.ConsValidatorNum →
      endBlockLoop env blockHash number result [validator] w = (.ok (), w)) ∧
    (c < env.ConsensusSize / env.ConsValidatorNum → blockAmountHigh < c → c ≤ blockAmountLow →
      ∃ amount, calcSlashAmount validator blockAmountLowSlashing = some amount ∧
        (endBlockLoop env blockHash number result [validator] w).2.trace
          = w.trace ++ [.slashCandidates
              ⟨blockHash, number, validator.NodeId, amount, false, .LowRatio⟩
              (env.SlashCandidates w.ledger
                ⟨blockHash, number, validator.NodeId, amount, false, .LowRatio⟩).1.failed]) ∧
    (c < env.ConsensusSize / env.ConsValidatorNum → c ≤ blockAmountHigh →
      ∃ amount, calcSlashAmount validator blockAmountHighSlashing = some amount ∧
        (endBlockLoop env blockHash number result [validator] w).2.trace
          = w.trace ++ [.slashCandidates
              ⟨blockHash, number, validator.NodeId, amount, true, .LowRatio⟩
              (env.SlashCandidates w.ledger
                ⟨blockHash, number, validator.NodeId, amount, true, .LowRatio⟩).1.failed]) ∧
    (c < env.ConsensusSize / env.ConsValidatorNum → blockAmountLow < c →
      endBlockLoop env blockHash number result [validator] w = (.ok (), w)) ∧
    (endBlockLoop env blockHash number result (validator :: rest) w
      = match endBlockLoop env blockHash number result [validator] w with
        | (.ok _, w1) => endBlockLoop env blockHash number result rest w1
        | r => r) := by
  refine ⟨by simp [isAbnormal], ?_, ?_, ?_, ?_, endBlockLoop_cons env blockHash number result
    validator rest w⟩
  · intro h
    rw [endBlockLoop_skip env blockHash number result validator [] w 0 false
      (by simp [classify, hc, isAbnormal, h])]
    rfl
  · intro h h1 h2
    exact endBlockLoop_slash_trace env blockHash number result validator w
      blockAmountLowSlashing false (by decide) (by simp [classify, hc, isAbnormal, h, h1, h2])
  · intro h h1
    have h2 : ¬ blockAmountHigh < c := by omega
    exact endBlockLoop_slash_trace env blockHash number result validator w
      blockAmountHighSlashing true (by decide) (by simp [classify, hc, isAbnormal, h, h1, h2])
  · intro h h1
    have h2 : ¬ c ≤ blockAmountLow := by omega
    have h3 : ¬ c ≤ blockAmountHigh := by
      have : blockAmountHigh ≤ blockAmountLow := by decide
      omega
    rw [endBlockLoop_skip env blockHash number result validator [] w 0 false
      (by simp [classify, hc, isAbnormal, h, h2, h3])]
    rfl

/-- Witness of C2: round length 250, 25 validators, a validator with previous-window count 7
and stake 1000, which is in the mild tier. -/
theorem endBlock_classification_witness :
    0 < (demoEnv 250 25 [] []).ConsValidatorNum ∧
    [(demoNode 3, 7)].lookup (demoCandidate 3 1000).NodeId = some 7 ∧
    ∃ amount, calcSlashAmount (demoCandidate 3 1000) blockAmountLowSlashing = some amount ∧
      (endBlockLoop (demoEnv 250 25 [] []) (demoHash 1) 480 [(demoNode 3, 7)]
          [demoCandidate 3 1000] (demoWorld ∅ none)).2.trace
        = (demoWorld ∅ none).trace ++ [.slashCandidates
            ⟨demoHash 1, 480, (demoCandidate 3 1000).NodeId, amount, false, .LowRatio⟩
            ((demoEnv 250 25 [] []).SlashCandidates (demoWorld ∅ none).ledger
              ⟨demoHash 1, 480, (demoCandidate 3 1000).NodeId, amount, false,
                .LowRatio⟩).1.failed] :=
  ⟨by decide, by simp [List.lookup, demoCandidate],
    (endBlock_classification (demoEnv 250 25 [] []) [(demoNode 3, 7)] (demoCandidate 3 1000) 7
      (demoHash 1) 480 [] (demoWorld ∅ none) (by decide)
      (by simp [List.lookup, demoCandidate])).2.2.1 (by decide) (by decide) (by decide)⟩

theorem EndBlock_policy (env : Env L) (w : World L) (blockHash : Hash) (header : Header)
    (result : List (NodeID × Nat)) (validatorList : List Candidate)
    (hel : env.IsElection header.Number = true) (hn : header.Number > env.ConsensusSize)
    (hres : (GetPreNodeAmount w).1 = .ok result)
    (hval : env.GetCandidateONRound w.ledger blockHash header.Number = .ok validatorList) :
    EndBlock env w blockHash header
      = endBlockLoop env blockHash header.Number result validatorList
          ((w.emit (.dbWalk preAbnormalPrefix)).emit
            (.getCandidateONRound blockHash header.Number)) := by
  have h1 : GetPreNodeAmount w = (.ok result, w.emit (.dbWalk preAbnormalPrefix)) := by
    rw [← hres]
    rfl
  have hl : (w.emit (.dbWalk preAbnormalPrefix)).ledger = w.ledger := rfl
  simp [EndBlock, hel, hn, h1, World.GetCandidateONRound, hl, hval]

/-- C3, evaluated on the code: at the policy block 480 of a chain with round length 250 and 25
validators, with an empty previous window, `EndBlock` slashes the only active validator (stake
1000) once, for the amount 50 of rate `blockAmountHighSlashing`, and the removal flag of the
call is false, whereas a validator with a recorded count of 3 is slashed for the same amount
with the removal flag true. -/
theorem endBlock_absent_validator_not_removed :
    (EndBlock (demoEnv 250 25 [demoCandidate 3 1000] []) (demoWorld ∅ none) (demoHash 1)
        ⟨480, [], demoHash 2⟩).2.trace
      = [.dbWalk preAbnormalPrefix, .getCandidateONRound (demoHash 1) 480,
          .slashCandidates ⟨demoHash 1, 480, demoNode 3, 50, false, .LowRatio⟩ false] ∧
    (endBlockLoop (demoEnv 250 25 [demoCandidate 3 1000] []) (demoHash 1) 480 [(demoNode 3, 3)]
        [demoCandidate 3 1000] (demoWorld ∅ none)).2.trace
      = [.slashCandidates ⟨demoHash 1, 480, demoNode 3, 50, true, .LowRatio⟩ false] := by
  constructor
  · rfl
  · have h : [(demoNode 3, 3)].lookup (demoCandidate 3 1000).NodeId = some 3 := by
      simp [List.lookup, demoCandidate]
    obtain ⟨amount, ha, ht⟩ := endBlockLoop_slash_trace (demoEnv 250 25 [demoCandidate 3 1000] [])
      (demoHash 1) 480 [(demoNode 3, 3)] (demoCandidate 3 1000) (demoWorld ∅ none)
      blockAmountHighSlashing true (by decide)
      (by simp [classify, h, isAbnormal, demoEnv, blockAmountLow, blockAmountHigh])
    rw [calcSlashAmount_eq _ _ (by decide)] at ha
    injection ha with ha
    rw [ht, ← ha]
    rfl

/-- C9 fails as stated: with round length 10 and 4 validators (so that the threshold
`ConsensusSize / ConsValidatorNum` is 2), a validator whose recorded count equals
`blockAmountHigh` and one whose recorded count equals `blockAmountLow` are not abnormal, and
the loop of `EndBlock` makes no slash call for them. -/
theorem endBlock_tie_break_counterexample :
    0 < (demoEnv 10 4 [] []).ConsValidatorNum ∧
    [(demoNode 3, blockAmountHigh)].lookup (demoCandidate 3 1000).NodeId = some blockAmountHigh ∧
    endBlockLoop (demoEnv 10 4 [] []) (demoHash 1) 30 [(demoNode 3, blockAmountHigh)]
        [demoCandidate 3 1000] (demoWorld ∅ none) = (.ok (), demoWorld ∅ none) ∧
    slashCalls (endBlockLoop (demoEnv 10 4 [] []) (demoHash 1) 30 [(demoNode 3, blockAmountHigh)]
        [demoCandidate 3 1000] (demoWorld ∅ none)).2.trace = [] ∧
    [(demoNode 3, blockAmountLow)].lookup (demoCandidate 3 1000).NodeId = some blockAmountLow ∧
    slashCalls (endBlockLoop (demoEnv 10 4 [] []) (demoHash 1) 30 [(demoNode 3, blockAmountLow)]
        [demoCandidate 3 1000] (demoWorld ∅ none)).2.trace = [] := by
  have h1 : [(demoNode 3, blockAmountHigh)].lookup (demoCandidate 3 1000).NodeId
      = some blockAmountHigh := by simp [List.lookup, demoCandidate]
  have h2 : [(demoNode 3, blockAmountLow)].lookup (demoCandidate 3 1000).NodeId
      = some blockAmountLow := by simp [List.lookup, demoCandidate]
  have e1 := endBlockLoop_skip (demoEnv 10 4 [] []) (demoHash 1) 30
    [(demoNode 3, blockAmountHigh)] (demoCandidate 3 1000) [] (demoWorld ∅ none) 0 false
    (by rw [classify, h1]; rfl)
  have e2 := endBlockLoop_skip (demoEnv 10 4 [] []) (demoHash 1) 30
    [(demoNode 3, blockAmountLow)] (demoCandidate 3 1000) [] (demoWorld ∅ none) 0 false
    (by rw [classify, h2]; rfl)
  refine ⟨by decide, h1, ?_, ?_, h2, ?_⟩
  · rw [e1]; rfl
  · rw [e1]; rfl
  · rw [e2]; rfl

/-- C9, amended. For an active validator with a recorded previous-window count `c`: when `c`
equals `blockAmountHigh` and `blockAmountHigh` is below `ConsensusSize / ConsValidatorNum`, the
loop of `EndBlock` makes exactly one slash call for it, with removal flag true (severe); when
`c` equals `blockAmountLow` and `blockAmountLow` is below `ConsensusSize / ConsValidatorNum`,
exactly one slash call, with removal flag false (mild); when `c` is above `blockAmountLow`, no
call at all, as also when `c` is not below `ConsensusSize / ConsValidatorNum`. -/
theorem endBlock_tie_break (env : Env L) (result : List (NodeID × Nat)) (validator : Candidate)
    (c : Nat) (blockHash : Hash) (number : Nat) (w : World L)
    (_hV : 0 < env.ConsValidatorNum)
    (hc : result.lookup validator.NodeId = some c) :
    (c = blockAmountHigh → blockAmountHigh < env.ConsensusSize / env.ConsValidatorNum →
      ∃ amount, calcSlashAmount validator blockAmountHighSlashing = some amount ∧
        (endBlockLoop env blockHash number result [validator] w).2.trace
          = w.trace ++ [.slashCandidates
              ⟨blockHash, number, validator.NodeId, amount, true, .LowRatio⟩
              (env.SlashCandidates w.ledger
                ⟨blockHash, number, validator.NodeId, amount, true, .LowRatio⟩).1.failed]) ∧
    (c = blockAmountLow → blockAmountLow < env.ConsensusSize / env.ConsValidatorNum →
      ∃ amount, calcSlashAmount validator blockAmountLowSlashing = some amount ∧
        (endBlockLoop env blockHash number result [validator] w).2.trace
          = w.trace ++ [.slashCandidates
              ⟨blockHash, number, validator.NodeId, amount, false, .LowRatio⟩
              (env.SlashCandidates w.ledger
                ⟨blockHash, number, validator.NodeId, amount, false, .LowRatio⟩).1.failed]) ∧
    (blockAmountLow < c →
      endBlockLoop env blockHash number result [validator] w = (.ok (), w)) ∧
    (¬ c < env.ConsensusSize / env.ConsValidatorNum →
      endBlockLoop env blockHash number result [validator] w = (.ok (), w)) := by
  refine ⟨?_, ?_, ?_, ?_⟩
  · intro h1 h2
    subst h1
    exact endBlockLoop_slash_trace env blockHash number result validator w
      blockAmountHighSlashing true (by decide)
      (by simp [classify, hc, isAbnormal, h2])
  · intro h1 h2
    subst h1
    have h3 : blockAmountHigh < blockAmountLow := by decide
    exact endBlockLoop_slash_trace env blockHash number result validator w
      blockAmountLowSlashing false (by decide)
      (by simp [classify, hc, isAbnormal, h2, h3])
  · intro h1
    have h2 : ¬ c ≤ blockAmountLow := by omega
    have h3 : ¬ c ≤ blockAmountHigh := by
      have : blockAmountHigh ≤ blockAmountLow := by decide
      omega
    have hcl : classify env result validator.NodeId = (false, 0, false) := by
      by_cases h : c < env.ConsensusSize / env.ConsValidatorNum <;>
        simp [classify, hc, isAbnormal, h, h2, h3]
    rw [endBlockLoop_skip env blockHash number result validator [] w 0 false hcl]
    rfl
  · intro h
    rw [endBlockLoop_skip env blockHash number result validator [] w 0 false
      (by simp [classify, hc, isAbnormal, h])]
    rfl

/-- Witness of the amended C9: round length 250 and 25 validators, recorded count 5. -/
theorem endBlock_tie_break_witness :
    0 < (demoEnv 250 25 [] []).ConsValidatorNum ∧
    [(demoNode 3, 5)].lookup (demoCandidate 3 1000).NodeId = some 5 ∧
    ∃ amount, calcSlashAmount (demoCandidate 3 1000) blockAmountHighSlashing = some amount ∧
      (endBlockLoop (demoEnv 250 25 [] []) (demoHash 1) 480 [(demoNode 3, 5)]
          [demoCandidate 3 1000] (demoWorld ∅ none)).2.trace
        = (demoWorld ∅ none).trace ++ [.slashCandidates
            ⟨demoHash 1, 480, (demoCandidate 3 1000).NodeId, amount, true, .LowRatio⟩
            ((demoEnv 250 25 [] []).SlashCandidates (demoWorld ∅ none).ledger
              ⟨demoHash 1, 480, (demoCandidate 3 1000).NodeId, amount, true,
                .LowRatio⟩).1.failed] :=
  ⟨by decide, by simp [List.lookup, demoCandidate],
    (endBlock_tie_break (demoEnv 250 25 [] []) [(demoNode 3, 5)] (demoCandidate 3 1000) 5
      (demoHash 1) 480 (demoWorld ∅ none) (by decide)
      (by simp [List.lookup, demoCandidate])).1 (by decide) (by decide)⟩

/-! ## Double-sign evidence -/

theorem slashCalls_append (s t : List Event) : slashCalls (s ++ t) = slashCalls s ++ slashCalls t := by
  induction s with
  | nil => rfl
  | cons ev s ih => cases ev <;> simp [slashCalls, ih]

theorem slashEvidence_invalid (env : Env L) (blockHash : Hash) (blockNumber : Nat)
    (e : Evidence) (w : World L) (err : Err) (hv : e.Validate = some err) :
    slashEvidence env blockHash blockNumber e w = (.err err, w.emit (.validate e)) := by
  simp [slashEvidence, hv]

theorem slashEvidence_exists (env : Env L) (blockHash : Hash) (blockNumber : Nat)
    (e : Evidence) (w : World L) (hv : e.Validate = none)
    (hrec : 0 < (getSlashResult e.Address e.BlockNumber e.EType w).len) :
    slashEvidence env blockHash blockNumber e w
      = (.err (NewBizError errSlashExist.Error), w.emit (.validate e)) := by
  have h : 0 < (getSlashResult e.Address e.BlockNumber e.EType (w.emit (.validate e))).len := hrec
  simp [slashEvidence, hv, h]

theorem slashEvidence_notfound (env : Env L) (blockHash : Hash) (blockNumber : Nat)
    (e : Evidence) (w : World L) (err : Err) (hv : e.Validate = none)
    (hrec : (getSlashResult e.Address e.BlockNumber e.EType w).len = 0)
    (hc : env.GetCandidateInfo w.ledger blockHash e.Address = .err err) :
    slashEvidence env blockHash blockNumber e w
      = (.err err, (w.emit (.validate e)).emit (.getCandidateInfo blockHash e.Address)) := by
  have h : (getSlashResult e.Address e.BlockNumber e.EType (w.emit (.validate e))).len = 0 := hrec
  have hl : (w.emit (.validate e)).ledger = w.ledger := rfl
  simp [slashEvidence, hv, h, World.GetCandidateInfo, hl, hc]

theorem slashEvidence_resolved (env : Env L) (blockHash : Hash) (blockNumber : Nat)
    (e : Evidence) (c : Candidate) (w : World L) (hv : e.Validate = none)
    (hrec : (getSlashResult e.Address e.BlockNumber e.EType w).len = 0)
    (hc : env.GetCandidateInfo w.ledger blockHash e.Address = .ok c) :
    slashEvidence env blockHash blockNumber e w
      = match ((w.emit (.validate e)).emit (.getCandidateInfo blockHash e.Address)).SlashCandidates
          env (doubleSignCall blockHash blockNumber c) with
        | (.err err, w2) => (.err err, w2)
        | (.panic, w2) => (.panic, w2)
        | (.ok _, w2) => (.ok (), putSlashResult e.Address e.BlockNumber e.EType w2) := by
  have h : (getSlashResult e.Address e.BlockNumber e.EType (w.emit (.validate e))).len = 0 := hrec
  have hl : (w.emit (.validate e)).ledger = w.ledger := rfl
  simp [slashEvidence, hv, h, World.GetCandidateInfo, hl, hc,
    calcSlashAmount_eq c duplicateSignLowSlashing (by decide), doubleSignCall]

theorem slashEvidence_slashfail (env : Env L) (blockHash : Hash) (blockNumber : Nat)
    (e : Evidence) (c : Candidate) (w : World L) (err : Err) (hv : e.Validate = none)
    (hrec : (getSlashResult e.Address e.BlockNumber e.EType w).len = 0)
    (hc : env.GetCandidateInfo w.ledger blockHash e.Address = .ok c)
    (hs : (env.SlashCandidates w.ledger (doubleSignCall blockHash blockNumber c)).1 = .err err) :
    slashEvidence env blockHash blockNumber e w
      = (.err err,
          { w with
            ledger := (env.SlashCandidates w.ledger (doubleSignCall blockHash blockNumber c)).2,
            trace := w.trace ++ [.validate e, .getCandidateInfo blockHash e.Address,
              .slashCandidates (doubleSignCall blockHash blockNumber c) true] }) := by
  rw [slashEvidence_resolved env blockHash blockNumber e c w hv hrec hc]
  simp [World.SlashCandidates, World.emit, hs, Res.failed]

theorem slashEvidence_ok (env : Env L) (blockHash : Hash) (blockNumber : Nat)
    (e : Evidence) (c : Candidate) (w : World L)
    (h : itemSucceeds env blockHash blockNumber e c w) :
    slashEvidence env blockHash blockNumber e w
      = (.ok (), slashedWorld env blockHash blockNumber e c w) := by
  obtain ⟨hv, hrec, hc, hs⟩ := h
  rw [slashEvidence_resolved env blockHash blockNumber e c w hv hrec hc]
  simp [World.SlashCandidates, World.emit, hs, Res.failed, putSlashResult, World.SetState,
    slashedWorld, slashedTrace]

theorem slashLoop_batch (env : Env L) (blockHash : Hash) (blockNumber : Nat)
    (pre : List (Evidence × Candidate)) (rest : List Evidence) (w : World L)
    (h : batchSucceeds env blockHash blockNumber pre w) :
    slashLoop env blockHash blockNumber (pre.map Prod.fst ++ rest) w
      = slashLoop env blockHash blockNumber rest (batchWorld env blockHash blockNumber pre w) := by
  induction pre generalizing w with
  | nil => rfl
  | cons p pre ih =>
    obtain ⟨e, c⟩ := p
    obtain ⟨h1, h2⟩ := h
    simp only [List.map_cons, List.cons_append, slashLoop, batchWorld]
    rw [slashEvidence_ok env blockHash blockNumber e c w h1]
    exact ih _ h2

theorem batchWorld_txHash (env : Env L) (blockHash : Hash) (blockNumber : Nat)
    (pre : List (Evidence × Candidate)) (w : World L) :
    (batchWorld env blockHash blockNumber pre w).txHash = w.txHash := by
  induction pre generalizing w with
  | nil => rfl
  | cons p pre ih =>
    obtain ⟨e, c⟩ := p
    simp only [batchWorld]
    rw [ih]
    rfl

theorem batchWorld_trace (env : Env L) (blockHash : Hash) (blockNumber : Nat)
    (pre : List (Evidence × Candidate)) (w : World L) :
    (batchWorld env blockHash blockNumber pre w).trace
      = w.trace ++ batchTrace blockHash blockNumber w.txHash pre := by
  induction pre generalizing w with
  | nil => simp [batchWorld, batchTrace]
  | cons p pre ih =>
    obtain ⟨e, c⟩ := p
    simp only [batchWorld, batchTrace]
    rw [ih]
    simp [slashedWorld]

theorem batchWorld_keeps (env : Env L) (blockHash : Hash) (blockNumber : Nat)
    (pre : List (Evidence × Candidate)) (w : World L) (k : Bytes)
    (h : w.storage k = some w.txHash.Bytes) :
    (batchWorld env blockHash blockNumber pre w).storage k = some w.txHash.Bytes := by
  induction pre generalizing w with
  | nil => exact h
  | cons p pre ih =>
    obtain ⟨e, c⟩ := p
    simp only [batchWorld]
    have := ih (slashedWorld env blockHash blockNumber e c w) (by
      by_cases hk : k = mutiSignKey e.Address e.BlockNumber e.EType <;> simp [slashedWorld, hk, h])
    simpa [slashedWorld] using this

theorem batchWorld_records (env : Env L) (blockHash : Hash) (blockNumber : Nat)
    (pre : List (Evidence × Candidate)) (w : World L) (p : Evidence × Candidate) (hp : p ∈ pre) :
    (batchWorld env blockHash blockNumber pre w).storage
      (mutiSignKey p.1.Address p.1.BlockNumber p.1.EType) = some w.txHash.Bytes := by
  induction pre generalizing w with
  | nil => cases hp
  | cons q pre ih =>
    obtain ⟨e, c⟩ := q
    simp only [batchWorld]
    rcases List.mem_cons.mp hp with h | h
    · subst h
      have := batchWorld_keeps env blockHash blockNumber pre
        (slashedWorld env blockHash blockNumber e c w)
        (mutiSignKey e.Address e.BlockNumber e.EType) (by simp [slashedWorld])
      simpa [slashedWorld] using this
    · have := ih (slashedWorld env blockHash blockNumber e c w) h
      simpa [slashedWorld] using this

theorem Slash_decoded (env : Env L) (data : String) (blockHash : Hash) (blockNumber : Nat)
    (w : World L) (evidences : List Evidence) (hdec : env.decodeEvidence data = .ok evidences) :
    Slash env data blockHash blockNumber w = slashLoop env blockHash blockNumber evidences w := by
  cases evidences with
  | nil => simp [Slash, hdec, slashLoop]
  | cons e rest => simp [Slash, hdec]

/-- C1. When the payload decodes to the single evidence `e`, which passes `Validate`, has no
stored record, resolves to a candidate and is slashed by the ledger without error, the first
call of `Slash` succeeds, and a second call with the same payload (in any transaction `tx2`,
at any block) returns the business error "Punishment has been implemented"; over both calls
the ledger's `SlashCandidates` is called exactly once; the second call only validates the
evidence: it makes no ledger call, writes nothing to the contract state and leaves the ledger
and the counter store as they are. -/
theorem slash_twice_rejected (env : Env L) (data : String) (blockHash1 blockHash2 : Hash)
    (blockNumber1 blockNumber2 : Nat) (e : Evidence) (c : Candidate) (w : World L) (tx2 : Hash)
    (hdec : env.decodeEvidence data = .ok [e])
    (hok : itemSucceeds env blockHash1 blockNumber1 e c w) :
    (Slash env data blockHash1 blockNumber1 w).1 = .ok () ∧
    (Slash env data blockHash2 blockNumber2
      { (Slash env data blockHash1 blockNumber1 w).2 with txHash := tx2 }).1
        = .err (.biz "Punishment has been implemented") ∧
    slashCalls (Slash env data blockHash2 blockNumber2
      { (Slash env data blockHash1 blockNumber1 w).2 with txHash := tx2 }).2.trace
        = slashCalls w.trace ++ [doubleSignCall blockHash1 blockNumber1 c] ∧
    (Slash env data blockHash2 blockNumber2
      { (Slash env data blockHash1 blockNumber1 w).2 with txHash := tx2 }).2.trace
        = (Slash env data blockHash1 blockNumber1 w).2.trace ++ [.validate e] ∧
    (Slash env data blockHash2 blockNumber2
      { (Slash env data blockHash1 blockNumber1 w).2 with txHash := tx2 }).2.storage
        = (Slash env data blockHash1 blockNumber1 w).2.storage ∧
    (Slash env data blockHash2 blockNumber2
      { (Slash env data blockHash1 blockNumber1 w).2 with txHash := tx2 }).2.ledger
        = (Slash env data blockHash1 blockNumber1 w).2.ledger ∧
    (Slash env data blockHash2 blockNumber2
      { (Slash env data blockHash1 blockNumber1 w).2 with txHash := tx2 }).2.base
        = (Slash env data blockHash1 blockNumber1 w).2.base := by
  have h1 : Slash env data blockHash1 blockNumber1 w
      = (.ok (), slashedWorld env blockHash1 blockNumber1 e c w) := by
    rw [Slash_decoded env data blockHash1 blockNumber1 w [e] hdec]
    simp [slashLoop, slashEvidence_ok env blockHash1 blockNumber1 e c w hok]
  have hlen : 0 < w.txHash.Bytes.length := by
    have := w.txHash.size_eq
    simp only [Hash.Bytes]
    omega
  have h2 : Slash env data blockHash2 blockNumber2
      { slashedWorld env blockHash1 blockNumber1 e c w with txHash := tx2 }
      = (.err (NewBizError errSlashExist.Error),
          World.emit { slashedWorld env blockHash1 blockNumber1 e c w with txHash := tx2 }
            (.validate e)) := by
    rw [Slash_decoded env data blockHash2 blockNumber2 _ [e] hdec]
    simp only [slashLoop]
    rw [slashEvidence_exists env blockHash2 blockNumber2 e _ hok.1
      (by simpa [getSlashResult, World.GetState, slashedWorld, GoBytes.len] using hlen)]
  rw [h1]
  have h3 : ({ (Res.ok (), slashedWorld env blockHash1 blockNumber1 e c w).2 with
      txHash := tx2 } : World L)
      = { slashedWorld env blockHash1 blockNumber1 e c w with txHash := tx2 } := rfl
  rw [h3, h2]
  refine ⟨rfl, rfl, ?_, rfl, rfl, rfl, rfl⟩
  simp [World.emit, slashedWorld, slashedTrace, slashCalls_append, slashCalls]

/-- Witness of C1: the evidence `demoEvidence 1 7` against a candidate of stake 1000, in a
state without records. -/
theorem slash_twice_rejected_witness :
    (demoEnv 250 25 [demoCandidate 3 1000] [demoEvidence 1 7]).decodeEvidence "" =
      .ok [demoEvidence 1 7] ∧
    itemSucceeds (demoEnv 250 25 [demoCandidate 3 1000] [demoEvidence 1 7]) (demoHash 1) 500
      (demoEvidence 1 7) (demoCandidate 3 1000) (demoWorld ∅ none) ∧
    (Slash (demoEnv 250 25 [demoCandidate 3 1000] [demoEvidence 1 7]) "" (demoHash 2) 501
      { (Slash (demoEnv 250 25 [demoCandidate 3 1000] [demoEvidence 1 7]) "" (demoHash 1) 500
          (demoWorld ∅ none)).2 with txHash := demoHash 8 }).1
        = .err (.biz "Punishment has been implemented") :=
  ⟨rfl, ⟨rfl, rfl, rfl, rfl⟩,
    (slash_twice_rejected (demoEnv 250 25 [demoCandidate 3 1000] [demoEvidence 1 7]) ""
      (demoHash 1) (demoHash 2) 500 501 (demoEvidence 1 7) (demoCandidate 3 1000)
      (demoWorld ∅ none) (demoHash 8) rfl ⟨rfl, rfl, rfl, rfl⟩).2.1⟩

/-- C7. Let the payload decode to the evidences of `pre`, then `e`, then `post`, where every
evidence of `pre` succeeds in the state left by the ones before it (it passes `Validate`, has
no record, resolves to its candidate and is slashed without error) and where `e` fails with
the error `err` in one of the four ways. Then `Slash` returns `err`; the calls it makes are
the calls of the successful evidences of `pre`, in decoded order (validation, candidate
lookup, successful slash, write of the record with the identifier of the current transaction),
followed by the validation of `e` and at most its candidate lookup and its failed slash call:
nothing is written for `e` and no call is made for an evidence of `post`; the contract state
is the one left by `pre`, in which the record of every evidence of `pre` holds the identifier
of the current transaction. -/
theorem slash_batch_partial_failure (env : Env L) (data : String) (blockHash : Hash)
    (blockNumber : Nat) (pre : List (Evidence × Candidate)) (e : Evidence)
    (post : List Evidence) (w : World L) (err : Err)
    (hdec : env.decodeEvidence data = .ok (pre.map Prod.fst ++ e :: post))
    (hpre : batchSucceeds env blockHash blockNumber pre w)
    (hfail : itemFails env blockHash blockNumber e (batchWorld env blockHash blockNumber pre w)
      err) :
    (Slash env data blockHash blockNumber w).1 = .err err ∧
    (∃ tail, (Slash env data blockHash blockNumber w).2.trace
        = w.trace ++ batchTrace blockHash blockNumber w.txHash pre ++ .validate e :: tail ∧
      (tail = [] ∨ tail = [.getCandidateInfo blockHash e.Address] ∨
        ∃ c, tail = [.getCandidateInfo blockHash e.Address,
          .slashCandidates (doubleSignCall blockHash blockNumber c) true])) ∧
    (Slash env data blockHash blockNumber w).2.storage
      = (batchWorld env blockHash blockNumber pre w).storage ∧
    (∀ p ∈ pre, (Slash env data blockHash blockNumber w).2.storage
        (mutiSignKey p.1.Address p.1.BlockNumber p.1.EType) = some w.txHash.Bytes) := by
  have hrun : Slash env data blockHash blockNumber w
      = match slashEvidence env blockHash blockNumber e
          (batchWorld env blockHash blockNumber pre w) with
        | (.err e1, w1) => (.err e1, w1)
        | (.panic, w1) => (.panic, w1)
        | (.ok _, w1) => slashLoop env blockHash blockNumber post w1 := by
    rw [Slash_decoded env data blockHash blockNumber w _ hdec,
      slashLoop_batch env blockHash blockNumber pre (e :: post) w hpre]
    rfl
  have htr := batchWorld_trace env blockHash blockNumber pre w
  have hrec := batchWorld_records env blockHash blockNumber pre w
  rcases hfail with hv | ⟨hv, hlen, herr⟩ | ⟨hv, hlen, hc⟩ | ⟨hv, hlen, c, hc, hs⟩
  · rw [hrun, slashEvidence_invalid env blockHash blockNumber e _ err hv]
    exact ⟨rfl, ⟨[], by simp [World.emit, htr], Or.inl rfl⟩, rfl, hrec⟩
  · rw [hrun, slashEvidence_exists env blockHash blockNumber e _ hv hlen, herr]
    exact ⟨rfl, ⟨[], by simp [World.emit, htr], Or.inl rfl⟩, rfl, hrec⟩
  · rw [hrun, slashEvidence_notfound env blockHash blockNumber e _ err hv hlen hc]
    exact ⟨rfl, ⟨_, by simp [World.emit, htr], Or.inr (Or.inl rfl)⟩, rfl, hrec⟩
  · rw [hrun, slashEvidence_slashfail env blockHash blockNumber e c _ err hv hlen hc hs]
    exact ⟨rfl, ⟨_, by simp [htr], Or.inr (Or.inr ⟨c, rfl⟩)⟩, rfl, hrec⟩

/-- Witness of C7: three decoded evidences, of which the second repeats the first one and
fails on the record that the first one has just written. -/
theorem slash_batch_partial_failure_witness :
    (demoEnv 250 25 [demoCandidate 3 1000]
      [demoEvidence 1 7, demoEvidence 1 7, demoEvidence 2 9]).decodeEvidence ""
      = .ok ([(demoEvidence 1 7, demoCandidate 3 1000)].map Prod.fst
          ++ demoEvidence 1 7 :: [demoEvidence 2 9]) ∧
    (Slash (demoEnv 250 25 [demoCandidate 3 1000]
      [demoEvidence 1 7, demoEvidence 1 7, demoEvidence 2 9]) "" (demoHash 1) 500
      (demoWorld ∅ none)).1 = .err (NewBizError errSlashExist.Error) :=
  ⟨rfl,
    (slash_batch_partial_failure (demoEnv 250 25 [demoCandidate 3 1000]
      [demoEvidence 1 7, demoEvidence 1 7, demoEvidence 2 9]) "" (demoHash 1) 500
      [(demoEvidence 1 7, demoCandidate 3 1000)] (demoEvidence 1 7) [demoEvidence 2 9]
      (demoWorld ∅ none) (NewBizError errSlashExist.Error) rfl
      (by exact ⟨⟨rfl, rfl, rfl, rfl⟩, trivial⟩)
      (by
        refine Or.inr (Or.inl ⟨rfl, ?_, rfl⟩)
        simp [batchWorld, slashedWorld, getSlashResult, World.GetState, GoBytes.len,
          demoWorld, demoHash, Hash.Bytes])).1⟩

/-- C8 fails as stated: for an evidence against a candidate of stake 1000, `Slash` calls the
ledger with the amount 100, which is the amount at rate `duplicateSignLowSlashing`, whereas the
amount at rate `duplicateSignHighSlashing` is 50. -/
theorem slash_rate_counterexample :
    slashCalls (Slash (demoEnv 250 25 [demoCandidate 3 1000] [demoEvidence 1 7]) ""
        (demoHash 1) 500 (demoWorld ∅ none)).2.trace
      = [⟨demoHash 1, 500, demoNode 3, 100, true, .DoubleSign⟩] ∧
    calcSlashAmount (demoCandidate 3 1000) duplicateSignHighSlashing = some 50 ∧
    calcSlashAmount (demoCandidate 3 1000) duplicateSignLowSlashing = some 100 := by
  refine ⟨rfl, rfl, rfl⟩

/-- C8, amended. For every evidence that passes `Validate`, has no stored record and whose
address resolves to a candidate `c`, `Slash` calls the ledger's slash operation exactly once,
on `c.NodeId`, with the amount of `c` at rate `duplicateSignLowSlashing`, removal flag true
and reason `DoubleSign`. -/
theorem slash_penalty_parameters (env : Env L) (blockHash : Hash) (blockNumber : Nat)
    (e : Evidence) (c : Candidate) (w : World L) (hv : e.Validate = none)
    (hrec : (getSlashResult e.Address e.BlockNumber e.EType w).len = 0)
    (hc : env.GetCandidateInfo w.ledger blockHash e.Address = .ok c) :
    ∃ amount, calcSlashAmount c duplicateSignLowSlashing = some amount ∧
      slashCalls (slashEvidence env blockHash blockNumber e w).2.trace
        = slashCalls w.trace ++ [⟨blockHash, blockNumber, c.NodeId, amount, true, .DoubleSign⟩] := by
  refine ⟨_, calcSlashAmount_eq c duplicateSignLowSlashing (by decide), ?_⟩
  rw [slashEvidence_resolved env blockHash blockNumber e c w hv hrec hc]
  rcases hs : (env.SlashCandidates w.ledger (doubleSignCall blockHash blockNumber c)).1 with
    u | err | _
  all_goals
    simp only [doubleSignCall] at hs
    simp [World.SlashCandidates, World.emit, hs, putSlashResult, World.SetState,
      slashCalls_append, slashCalls, doubleSignCall]

/-- Witness of the amended C8: the evidence `demoEvidence 1 7` against a candidate of stake
1000. -/
theorem slash_penalty_parameters_witness :
    (demoEvidence 1 7).Validate = none ∧
    ∃ amount, calcSlashAmount (demoCandidate 3 1000) duplicateSignLowSlashing = some amount ∧
      slashCalls (slashEvidence (demoEnv 250 25 [demoCandidate 3 1000] []) (demoHash 1) 500
          (demoEvidence 1 7) (demoWorld ∅ none)).2.trace
        = slashCalls (demoWorld ∅ none).trace
          ++ [⟨demoHash 1, 500, (demoCandidate 3 1000).NodeId, amount, true, .DoubleSign⟩] :=
  ⟨rfl, slash_penalty_parameters (demoEnv 250 25 [demoCandidate 3 1000] []) (demoHash 1) 500
    (demoEvidence 1 7) (demoCandidate 3 1000) (demoWorld ∅ none) rfl rfl rfl⟩

/-- C10, evaluated on the code: in a contract state whose `GetState` returns the empty
non-nil slice for a key that was never written, `CheckMutiSign` reports for a triple that was
never slashed that a record exists, with an empty transaction identifier, whereas the guard of
`Slash` finds no record for the triple (the length of the value is zero) and `Slash` accepts
an evidence for it. -/
theorem checkMutiSign_unwritten_key :
    (CheckMutiSign (demoAddr 1) 7 1 (demoWorld ∅ (some []))).1 = (true, some [], none) ∧
    (getSlashResult (demoAddr 1) 7 1 (demoWorld ∅ (some []))).len = 0 ∧
    (Slash (demoEnv 250 25 [demoCandidate 3 1000] [demoEvidence 1 7]) "" (demoHash 1) 500
      (demoWorld ∅ (some []))).1 = .ok () ∧
    (CheckMutiSign (demoAddr 1) 7 1 (demoWorld ∅ none)).1 = (false, none, none) := by
  refine ⟨rfl, rfl, rfl, rfl⟩

/-! ## Round counter store -/

theorem rlp_roundtrip (v : Nat) (hv : v < 65536) :
    rlpDecodeUint16 (rlpEncodeUint16 v) = .ok v := by
  unfold rlpEncodeUint16
  split_ifs with h0 h1 h2
  · simp [rlpDecodeUint16, h0]
  · have h3 : v ≠ 128 := by omega
    have h4 : 0 < v := by omega
    simp [rlpDecodeUint16, h3, h4, h1]
  · have h3 : 128 ≤ v := by omega
    simp [rlpDecodeUint16, h3, h2]
  · have h3 : 0 < v / 256 % 256 := by omega
    have h4 : v / 256 % 256 < 256 := by omega
    have h5 : v % 256 < 256 := by omega
    simp only [rlpDecodeUint16, h3, h4, h5, and_self, if_true]
    congr 1
    omega

theorem getBlockAmount_counter (env : Env L) (w : World L) (blockHash : Hash) (header : Header)
    (id : NodeID) (c : Nat) (hp : parseNodeId env header = .ok id) (hc : counterIs w id c) :
    getBlockAmount env w blockHash header
      = (.ok c, w.emit (.dbGet blockHash (curKey id.Bytes))) := by
  obtain ⟨hlt, ⟨h0, hnone⟩ | hsome⟩ := hc
  · simp [getBlockAmount, hp, World.Get, hnone, h0]
  · simp [getBlockAmount, hp, World.Get, hsome, rlp_roundtrip c hlt]

theorem setBlockAmount_counter (env : Env L) (w : World L) (blockHash : Hash) (header : Header)
    (id : NodeID) (c : Nat) (hp : parseNodeId env header = .ok id) (hc : counterIs w id c) :
    (setBlockAmount env w blockHash header).1 = .ok () ∧
      counterIs (setBlockAmount env w blockHash header).2 id ((c + 1) % 65536) := by
  have hg := getBlockAmount_counter env w blockHash header id c hp hc
  have hlt : (c + 1) % 65536 < 65536 := Nat.mod_lt _ (by decide)
  simp only [setBlockAmount, hp, hg, World.PutBaseDB]
  exact ⟨trivial, hlt, Or.inr (by simp [World.emit, AList.lookup_insert])⟩

theorem setBlockAmounts_counter (env : Env L) (id : NodeID) (hs : List (Hash × Header))
    (w : World L) (c : Nat) (hp : ∀ p ∈ hs, parseNodeId env p.2 = .ok id)
    (hc : counterIs w id c) :
    (setBlockAmounts env hs w).1 = .ok () ∧
      counterIs (setBlockAmounts env hs w).2 id ((c + hs.length) % 65536) := by
  induction hs generalizing w c with
  | nil =>
    have : c % 65536 = c := Nat.mod_eq_of_lt hc.1
    simpa [setBlockAmounts, this] using hc
  | cons p hs ih =>
    obtain ⟨blockHash, header⟩ := p
    have hp1 : parseNodeId env header = .ok id := hp (blockHash, header) (List.mem_cons_self _ _)
    obtain ⟨h1, h2⟩ := setBlockAmount_counter env w blockHash header id c hp1 hc
    rcases hstep : setBlockAmount env w blockHash header with ⟨r, w1⟩
    rw [hstep] at h1 h2
    simp only at h1 h2
    subst h1
    have := ih w1 ((c + 1) % 65536) (fun p hmem => hp p (List.mem_cons_of_mem _ hmem)) h2
    simp only [setBlockAmounts, hstep, List.length_cons]
    have harith : ((c + 1) % 65536 + hs.length) % 65536 = (c + (hs.length + 1)) % 65536 := by
      omega
    rw [← harith]
    exact this

theorem getBlockAmount_after (env : Env L) (id : NodeID) (hs : List (Hash × Header))
    (w : World L) (blockHash : Hash) (header : Header)
    (hstart : w.base.lookup (curKey id.Bytes) = none)
    (hp : ∀ p ∈ hs, parseNodeId env p.2 = .ok id)
    (hq : parseNodeId env header = .ok id) :
    (setBlockAmounts env hs w).1 = .ok () ∧
      (getBlockAmount env (setBlockAmounts env hs w).2 blockHash header).1
        = .ok (hs.length % 65536) := by
  have hc : counterIs w id 0 := ⟨by decide, Or.inl ⟨rfl, hstart⟩⟩
  obtain ⟨h1, h2⟩ := setBlockAmounts_counter env id hs w 0 hp hc
  refine ⟨h1, ?_⟩
  rw [getBlockAmount_counter env _ blockHash header id _ hq h2]
  simp

/-- C5 fails as stated: starting from a store without entry for the signer, where
`getBlockAmount` returns 0, after 65536 successful calls of `setBlockAmount` for headers signed
by the same validator `getBlockAmount` returns 0 and not 65536, because the counter is a
`uint16`. -/
theorem getBlockAmount_wraps :
    (demoWorld ∅ none).base.lookup (curKey (demoNode 1).Bytes) = none ∧
    (getBlockAmount (demoEnv 250 25 [] []) (demoWorld ∅ none) (demoHash 1) (demoHeader 5)).1
      = .ok 0 ∧
    (List.replicate 65536 (demoHash 1, demoHeader 5)).length = 65536 ∧
    (setBlockAmounts (demoEnv 250 25 [] []) (List.replicate 65536 (demoHash 1, demoHeader 5))
      (demoWorld ∅ none)).1 = .ok () ∧
    (getBlockAmount (demoEnv 250 25 [] [])
      (setBlockAmounts (demoEnv 250 25 [] []) (List.replicate 65536 (demoHash 1, demoHeader 5))
        (demoWorld ∅ none)).2 (demoHash 1) (demoHeader 5)).1 = .ok 0 := by
  have hstart : (demoWorld ∅ none).base.lookup (curKey (demoNode 1).Bytes) = none := rfl
  have hq : parseNodeId (demoEnv 250 25 [] []) (demoHeader 5) = .ok (demoNode 1) := rfl
  obtain ⟨h1, h2⟩ := getBlockAmount_after (demoEnv 250 25 [] []) (demoNode 1)
    (List.replicate 65536 (demoHash 1, demoHeader 5)) (demoWorld ∅ none) (demoHash 1)
    (demoHeader 5) hstart
    (fun p hp => by rw [List.eq_of_mem_replicate hp]; exact hq) hq
  rw [List.length_replicate] at h2
  exact ⟨hstart, rfl, List.length_replicate _ _, h1, h2⟩

/-- C5, amended. Starting from a store with no current-window entry for a validator, where
`getBlockAmount` returns 0 and no error, N calls of `setBlockAmount` for headers signed by
that validator all succeed, and afterwards `getBlockAmount` for that validator returns N
modulo 65536, which is N as long as N is at most 65535. -/
theorem getBlockAmount_after_increments (env : Env L) (id : NodeID)
    (hs : List (Hash × Header)) (w : World L) (blockHash : Hash) (header : Header)
    (hstart : w.base.lookup (curKey id.Bytes) = none)
    (hp : ∀ p ∈ hs, parseNodeId env p.2 = .ok id)
    (hq : parseNodeId env header = .ok id) :
    (getBlockAmount env w blockHash header).1 = .ok 0 ∧
    (setBlockAmounts env hs w).1 = .ok () ∧
    (getBlockAmount env (setBlockAmounts env hs w).2 blockHash header).1
      = .ok (hs.length % 65536) ∧
    (hs.length ≤ 65535 →
      (getBlockAmount env (setBlockAmounts env hs w).2 blockHash header).1 = .ok hs.length) := by
  obtain ⟨h1, h2⟩ := getBlockAmount_after env id hs w blockHash header hstart hp hq
  have h0 : (getBlockAmount env w blockHash header).1 = .ok 0 := by
    rw [getBlockAmount_counter env w blockHash header id 0 hq ⟨by decide, Or.inl ⟨rfl, hstart⟩⟩]
  refine ⟨h0, h1, h2, ?_⟩
  intro hle
  rw [h2, Nat.mod_eq_of_lt (by omega)]

/-- Witness of the amended C5: three blocks signed by `demoNode 1`. -/
theorem getBlockAmount_after_increments_witness :
    (demoWorld ∅ none).base.lookup (curKey (demoNode 1).Bytes) = none ∧
    (getBlockAmount (demoEnv 250 25 [] [])
      (setBlockAmounts (demoEnv 250 25 [] [])
        [(demoHash 1, demoHeader 5), (demoHash 2, demoHeader 6), (demoHash 3, demoHeader 7)]
        (demoWorld ∅ none)).2 (demoHash 4) (demoHeader 8)).1 = .ok (3 % 65536) :=
  ⟨rfl, (getBlockAmount_after_increments (demoEnv 250 25 [] []) (demoNode 1)
    [(demoHash 1, demoHeader 5), (demoHash 2, demoHeader 6), (demoHash 3, demoHeader 7)]
    (demoWorld ∅ none) (demoHash 4) (demoHeader 8) rfl
    (fun p hp => by
      simp only [List.mem_cons, List.mem_singleton, List.not_mem_nil, or_false] at hp
      rcases hp with h | h | h <;> subst h <;> rfl)
    rfl).2.2.1⟩

/-! ## Epoch rotation -/

theorem switchEpochDel_spec (it : List (Bytes × Bytes)) (w : World L) :
    (switchEpochDel it w).1 = none ∧ (switchEpochDel it w).2.base = delKeys it w.base := by
  induction it generalizing w with
  | nil => exact ⟨rfl, rfl⟩
  | cons p it ih =>
    obtain ⟨key, value⟩ := p
    simp only [switchEpochDel, World.DelBaseDB, delKeys, List.foldl_cons]
    exact ih _

theorem switchEpochMove_spec (it : List (Bytes × Bytes)) (w : World L) :
    (switchEpochMove it w).1 = none ∧ (switchEpochMove it w).2.base = moveKeys it w.base := by
  induction it generalizing w with
  | nil => exact ⟨rfl, rfl⟩
  | cons p it ih =>
    obtain ⟨key, value⟩ := p
    simp only [switchEpochMove, World.DelBaseDB, World.PutBaseDB, moveKeys, List.foldl_cons]
    exact ih _

theorem switchEpoch_spec (w : World L) (blockHash : Hash) :
    (switchEpoch w blockHash).1 = none ∧
    (switchEpoch w blockHash).2.base
      = moveKeys (iterEntries (delKeys (iterEntries w.base preAbnormalPrefix) w.base)
          curAbnormalPrefix) (delKeys (iterEntries w.base preAbnormalPrefix) w.base) := by
  obtain ⟨h1, h2⟩ := switchEpochDel_spec (iterEntries w.base preAbnormalPrefix)
    (w.emit (.dbWalk preAbnormalPrefix))
  rcases hd : switchEpochDel (iterEntries w.base preAbnormalPrefix)
    (w.emit (.dbWalk preAbnormalPrefix)) with ⟨r1, w1⟩
  rw [hd] at h1 h2
  simp only at h1 h2
  subst h1
  obtain ⟨h3, h4⟩ := switchEpochMove_spec (iterEntries w1.base curAbnormalPrefix)
    (w1.emit (.dbWalk curAbnormalPrefix))
  rcases hm : switchEpochMove (iterEntries w1.base curAbnormalPrefix)
    (w1.emit (.dbWalk curAbnormalPrefix)) with ⟨r2, w2⟩
  rw [hm] at h3 h4
  simp only at h3 h4
  subst h3
  simp only [switchEpoch, hd, hm]
  refine ⟨trivial, ?_⟩
  rw [h4]
  simp only [World.emit, h2]

theorem mem_iterEntries (b : BaseDB) (pfx : Bytes) (p : Bytes × Bytes) :
    p ∈ iterEntries b pfx ↔ b.lookup p.1 = some p.2 ∧ pfx <+: p.1 := by
  obtain ⟨k, v⟩ := p
  unfold iterEntries
  rw [(List.perm_insertionSort keyLE _).mem_iff, List.mem_filter, List.mem_map]
  simp only [List.isPrefixOf_iff_prefix]
  constructor
  · rintro ⟨⟨e, he, heq⟩, hpre⟩
    refine ⟨?_, hpre⟩
    obtain ⟨k1, v1⟩ := e
    simp only [Prod.mk.injEq] at heq
    obtain ⟨rfl, rfl⟩ := heq
    exact AList.mem_lookup_iff.mpr he
  · rintro ⟨hl, hpre⟩
    exact ⟨⟨⟨k, v⟩, AList.mem_lookup_iff.mp hl, rfl⟩, hpre⟩

theorem nodup_iterEntries (b : BaseDB) (pfx : Bytes) :
    ((iterEntries b pfx).map Prod.fst).Nodup := by
  unfold iterEntries
  rw [((List.perm_insertionSort keyLE _).map Prod.fst).nodup_iff]
  refine ((List.filter_sublist _).map Prod.fst).nodup ?_
  have h : (b.entries.map fun e => ((e.1, e.2) : Bytes × Bytes)).map Prod.fst = b.keys := by
    simp [AList.keys, List.keys, List.map_map, Function.comp_def]
  rw [h]
  exact b.keys_nodup

theorem lookup_delKeys (l : List (Bytes × Bytes)) (b : BaseDB) (k : Bytes) :
    (delKeys l b).lookup k = if k ∈ l.map Prod.fst then none else b.lookup k := by
  induction l generalizing b with
  | nil => simp [delKeys]
  | cons p l ih =>
    obtain ⟨k0, v0⟩ := p
    have hstep : delKeys ((k0, v0) :: l) b = delKeys l (b.erase k0) := rfl
    rw [hstep, ih]
    by_cases hk : k = k0
    · subst hk
      simp [AList.lookup_erase]
    · by_cases hm : k ∈ l.map Prod.fst
      · simp [hm]
      · have hm2 : ¬ k ∈ ((k0, v0) :: l).map Prod.fst := by
          simp only [List.map_cons, List.mem_cons]
          rintro (h | h)
          · exact hk h
          · exact hm h
        rw [if_neg hm, if_neg hm2, AList.lookup_erase_ne hk]

theorem prefixes_disjoint (k : Bytes) (h1 : curAbnormalPrefix <+: k)
    (h2 : preAbnormalPrefix <+: k) : False := by
  obtain ⟨t1, rfl⟩ := h1
  obtain ⟨t2, h⟩ := h2
  have := (List.append_inj h (by decide)).1
  revert this
  decide

theorem preKey_injective (a b : Bytes) (h : preKey a = preKey b) : a = b := by
  unfold preKey at h
  exact List.append_cancel_left h

theorem eq_curKey_drop (k : Bytes) (h : curAbnormalPrefix <+: k) :
    k = curKey (k.drop curAbnormalPrefix.length) := by
  unfold curKey
  exact (List.prefix_iff_eq_append.mp h).symm

theorem lookup_moveKeys_other (l : List (Bytes × Bytes)) (b : BaseDB) (k : Bytes)
    (h1 : k ∉ l.map Prod.fst)
    (h2 : ∀ e ∈ l, k ≠ preKey (e.1.drop curAbnormalPrefix.length)) :
    (moveKeys l b).lookup k = b.lookup k := by
  induction l generalizing b with
  | nil => rfl
  | cons p l ih =>
    obtain ⟨k0, v0⟩ := p
    have hstep : moveKeys ((k0, v0) :: l) b
        = moveKeys l ((b.erase k0).insert (preKey (k0.drop curAbnormalPrefix.length)) v0) := rfl
    have hk0 : k ≠ k0 := fun h => h1 (by simp [h])
    have hp0 : k ≠ preKey (k0.drop curAbnormalPrefix.length) :=
      h2 (k0, v0) (List.mem_cons_self _ _)
    rw [hstep, ih _ (fun h => h1 (List.mem_cons_of_mem _ h))
      (fun e he => h2 e (List.mem_cons_of_mem _ he)),
      AList.lookup_insert_ne hp0, AList.lookup_erase_ne hk0]

theorem lookup_moveKeys_cur (l : List (Bytes × Bytes)) (b : BaseDB) (k : Bytes)
    (hcur : ∀ e ∈ l, curAbnormalPrefix <+: e.1) (hk : k ∈ l.map Prod.fst) :
    (moveKeys l b).lookup k = none := by
  induction l generalizing b with
  | nil => cases hk
  | cons p l ih =>
    obtain ⟨k0, v0⟩ := p
    have hstep : moveKeys ((k0, v0) :: l) b
        = moveKeys l ((b.erase k0).insert (preKey (k0.drop curAbnormalPrefix.length)) v0) := rfl
    rw [hstep]
    by_cases hm : k ∈ l.map Prod.fst
    · exact ih _ (fun e he => hcur e (List.mem_cons_of_mem _ he)) hm
    · have hk0 : k = k0 := by
        simp only [List.map_cons, List.mem_cons] at hk
        rcases hk with h | h
        · exact h
        · exact absurd h hm
      subst hk0
      have hpk : curAbnormalPrefix <+: k := hcur (k, v0) (List.mem_cons_self _ _)
      have hne : ∀ x : Bytes, k ≠ preKey x := by
        intro x hx
        exact prefixes_disjoint k hpk ⟨x, by rw [hx]; rfl⟩
      rw [lookup_moveKeys_other l _ k hm (fun e _ => hne _), AList.lookup_insert_ne (hne _),
        AList.lookup_erase]

theorem lookup_moveKeys_moved (l : List (Bytes × Bytes)) (b : BaseDB) (e : Bytes × Bytes)
    (hnd : (l.map Prod.fst).Nodup) (hcur : ∀ e ∈ l, curAbnormalPrefix <+: e.1) (he : e ∈ l) :
    (moveKeys l b).lookup (preKey (e.1.drop curAbnormalPrefix.length)) = some e.2 := by
  induction l generalizing b with
  | nil => cases he
  | cons p l ih =>
    obtain ⟨k0, v0⟩ := p
    have hstep : moveKeys ((k0, v0) :: l) b
        = moveKeys l ((b.erase k0).insert (preKey (k0.drop curAbnormalPrefix.length)) v0) := rfl
    rw [hstep]
    simp only [List.map_cons, List.nodup_cons] at hnd
    by_cases hm : e ∈ l
    · exact ih _ hnd.2 (fun e he => hcur e (List.mem_cons_of_mem _ he)) hm
    · have he0 : e = (k0, v0) := by
        rcases List.mem_cons.mp he with h | h
        · exact h
        · exact absurd h hm
      subst he0
      have hpk : curAbnormalPrefix <+: k0 := hcur (k0, v0) (List.mem_cons_self _ _)
      have h1 : preKey (k0.drop curAbnormalPrefix.length) ∉ l.map Prod.fst := by
        intro hmem
        obtain ⟨e1, he1, heq⟩ := List.mem_map.mp hmem
        have hc1 := hcur e1 (List.mem_cons_of_mem _ he1)
        rw [heq] at hc1
        exact prefixes_disjoint _ hc1 ⟨_, rfl⟩
      have h2 : ∀ e1 ∈ l, preKey (k0.drop curAbnormalPrefix.length)
          ≠ preKey (e1.1.drop curAbnormalPrefix.length) := by
        intro e1 he1 heq
        have hd := preKey_injective _ _ heq
        have hc1 := hcur e1 (List.mem_cons_of_mem _ he1)
        have hk : k0 = e1.1 := by
          rw [eq_curKey_drop k0 hpk, eq_curKey_drop e1.1 hc1, hd]
        exact hnd.1 (by rw [hk]; exact List.mem_map_of_mem _ he1)
      rw [lookup_moveKeys_other l _ _ h1 h2, AList.lookup_insert]

theorem rotation_lookup (b : BaseDB) :
    (∀ k v, b.lookup (curKey k) = some v →
      (moveKeys (iterEntries (delKeys (iterEntries b preAbnormalPrefix) b) curAbnormalPrefix)
        (delKeys (iterEntries b preAbnormalPrefix) b)).lookup (preKey k) = some v) ∧
    (∀ key, curAbnormalPrefix <+: key →
      (moveKeys (iterEntries (delKeys (iterEntries b preAbnormalPrefix) b) curAbnormalPrefix)
        (delKeys (iterEntries b preAbnormalPrefix) b)).lookup key = none) ∧
    (∀ key v, preAbnormalPrefix <+: key →
      (moveKeys (iterEntries (delKeys (iterEntries b preAbnormalPrefix) b) curAbnormalPrefix)
        (delKeys (iterEntries b preAbnormalPrefix) b)).lookup key = some v →
      ∃ k, key = preKey k ∧ b.lookup (curKey k) = some v) ∧
    (∀ key, ¬ curAbnormalPrefix <+: key → ¬ preAbnormalPrefix <+: key →
      (moveKeys (iterEntries (delKeys (iterEntries b preAbnormalPrefix) b) curAbnormalPrefix)
        (delKeys (iterEntries b preAbnormalPrefix) b)).lookup key = b.lookup key) := by
  generalize hb1 : delKeys (iterEntries b preAbnormalPrefix) b = b1
  have F1 : ∀ k, ¬ preAbnormalPrefix <+: k → b1.lookup k = b.lookup k := by
    intro k hk
    rw [← hb1, lookup_delKeys, if_neg]
    intro hmem
    obtain ⟨p, hp, rfl⟩ := List.mem_map.mp hmem
    exact hk ((mem_iterEntries b _ p).mp hp).2
  have F2 : ∀ k, preAbnormalPrefix <+: k → b1.lookup k = none := by
    intro k hk
    rw [← hb1, lookup_delKeys]
    split_ifs with hmem
    · rfl
    · cases hl : b.lookup k with
      | none => rfl
      | some v =>
        exact absurd (List.mem_map_of_mem Prod.fst ((mem_iterEntries b _ (k, v)).mpr ⟨hl, hk⟩)) hmem
  have F3 : ∀ e ∈ iterEntries b1 curAbnormalPrefix, curAbnormalPrefix <+: e.1 :=
    fun e he => ((mem_iterEntries b1 _ e).mp he).2
  have hnd := nodup_iterEntries b1 curAbnormalPrefix
  have hcurpre : ∀ (key x : Bytes), curAbnormalPrefix <+: key → key ≠ preKey x := by
    intro key x hk hx
    exact prefixes_disjoint key hk ⟨x, by rw [hx]; rfl⟩
  have hkeys : ∀ key, key ∈ (iterEntries b1 curAbnormalPrefix).map Prod.fst →
      curAbnormalPrefix <+: key := by
    intro key hmem
    obtain ⟨p, hp, rfl⟩ := List.mem_map.mp hmem
    exact F3 p hp
  have P3 : ∀ key v, preAbnormalPrefix <+: key →
      (moveKeys (iterEntries b1 curAbnormalPrefix) b1).lookup key = some v →
      ∃ k, key = preKey k ∧ b.lookup (curKey k) = some v := by
    intro key v hk hl
    by_cases hex : ∃ e ∈ iterEntries b1 curAbnormalPrefix,
        key = preKey (e.1.drop curAbnormalPrefix.length)
    · obtain ⟨e, he, hkey⟩ := hex
      have hm := lookup_moveKeys_moved _ b1 e hnd F3 he
      rw [← hkey, hl] at hm
      injection hm with hv
      refine ⟨e.1.drop curAbnormalPrefix.length, hkey, ?_⟩
      rw [← eq_curKey_drop e.1 (F3 e he), ← F1 e.1 (fun h => prefixes_disjoint _ (F3 e he) h), hv]
      exact ((mem_iterEntries b1 _ e).mp he).1
    · have hne : ∀ e ∈ iterEntries b1 curAbnormalPrefix,
          key ≠ preKey (e.1.drop curAbnormalPrefix.length) :=
        fun e he h => hex ⟨e, he, h⟩
      have hnk : key ∉ (iterEntries b1 curAbnormalPrefix).map Prod.fst :=
        fun hmem => prefixes_disjoint key (hkeys key hmem) hk
      rw [lookup_moveKeys_other _ b1 key hnk hne, F2 key hk] at hl
      cases hl
  refine ⟨?_, ?_, P3, ?_⟩
  · intro k v hl
    have hpc : curAbnormalPrefix <+: curKey k := ⟨k, rfl⟩
    have h1 : b1.lookup (curKey k) = some v := by
      rw [F1 _ (fun h => prefixes_disjoint _ hpc h)]
      exact hl
    have hmem : (curKey k, v) ∈ iterEntries b1 curAbnormalPrefix :=
      (mem_iterEntries b1 _ (curKey k, v)).mpr ⟨h1, hpc⟩
    have := lookup_moveKeys_moved _ b1 (curKey k, v) hnd F3 hmem
    have hdrop : (curKey k).drop curAbnormalPrefix.length = k := List.drop_left _ _
    simpa only [hdrop] using this
  · intro key hk
    by_cases hmem : key ∈ (iterEntries b1 curAbnormalPrefix).map Prod.fst
    · exact lookup_moveKeys_cur _ b1 key F3 hmem
    · rw [lookup_moveKeys_other _ b1 key hmem (fun e _ => hcurpre key _ hk)]
      cases hl : b1.lookup key with
      | none => rfl
      | some v =>
        exact absurd (List.mem_map_of_mem Prod.fst
          ((mem_iterEntries b1 _ (key, v)).mpr ⟨hl, hk⟩)) hmem
  · intro key hc hp
    have hnk : key ∉ (iterEntries b1 curAbnormalPrefix).map Prod.fst :=
      fun hmem => hc (hkeys key hmem)
    have hne : ∀ e ∈ iterEntries b1 curAbnormalPrefix,
        key ≠ preKey (e.1.drop curAbnormalPrefix.length) := by
      intro e _ h
      exact hp ⟨_, by rw [h]; rfl⟩
    rw [lookup_moveKeys_other _ b1 key hnk hne, F1 key hp]

/-- C4. When `switchEpoch` succeeds on a store, leaving the store `w1.base`: every value stored
under a current-window key "SlashCb" ++ k is stored under the previous-window key
"SlashPb" ++ k; no key with the prefix "SlashCb" is left; every entry under a key with the
prefix "SlashPb" comes from the current-window entry of the same suffix, so that a
previous-window key whose suffix has no current-window entry is gone; and every key with
neither prefix keeps its value. -/
theorem switchEpoch_rotation (w w1 : World L) (blockHash : Hash)
    (h : switchEpoch w blockHash = (none, w1)) :
    (∀ k v, w.base.lookup (curKey k) = some v → w1.base.lookup (preKey k) = some v) ∧
    (∀ key, curAbnormalPrefix <+: key → w1.base.lookup key = none) ∧
    (∀ key v, preAbnormalPrefix <+: key → w1.base.lookup key = some v →
      ∃ k, key = preKey k ∧ w.base.lookup (curKey k) = some v) ∧
    (∀ k, w.base.lookup (curKey k) = none → w1.base.lookup (preKey k) = none) ∧
    (∀ key, ¬ curAbnormalPrefix <+: key → ¬ preAbnormalPrefix <+: key →
      w1.base.lookup key = w.base.lookup key) := by
  have hb : w1.base = (switchEpoch w blockHash).2.base := by rw [h]
  rw [hb, (switchEpoch_spec w blockHash).2]
  obtain ⟨h1, h2, h3, h4⟩ := rotation_lookup w.base
  refine ⟨h1, h2, h3, ?_, h4⟩
  intro k hnone
  cases hl : (moveKeys (iterEntries (delKeys (iterEntries w.base preAbnormalPrefix) w.base)
      curAbnormalPrefix) (delKeys (iterEntries w.base preAbnormalPrefix) w.base)).lookup
      (preKey k) with
  | none => rfl
  | some v =>
    obtain ⟨k1, hk1, hv⟩ := h3 (preKey k) v ⟨k, rfl⟩ hl
    rw [← preKey_injective _ _ hk1, hnone] at hv
    cases hv

/-- Witness of C4: a store with the current-window count 3 of `demoNode 1` and a stale
previous-window count of `demoNode 2`. -/
theorem switchEpoch_rotation_witness :
    switchEpoch (demoWorld ((AList.insert (curKey (demoNode 1).Bytes) [3]
        (AList.insert (preKey (demoNode 2).Bytes) [5] ∅))) none) (demoHash 1)
      = (none, (switchEpoch (demoWorld ((AList.insert (curKey (demoNode 1).Bytes) [3]
        (AList.insert (preKey (demoNode 2).Bytes) [5] ∅))) none) (demoHash 1)).2) ∧
    (switchEpoch (demoWorld ((AList.insert (curKey (demoNode 1).Bytes) [3]
        (AList.insert (preKey (demoNode 2).Bytes) [5] ∅))) none) (demoHash 1)).2.base.lookup
      (preKey (demoNode 1).Bytes) = some [3] :=
  ⟨Prod.ext (switchEpoch_spec _ _).1 rfl,
    (switchEpoch_rotation (demoWorld ((AList.insert (curKey (demoNode 1).Bytes) [3]
        (AList.insert (preKey (demoNode 2).Bytes) [5] ∅))) none) _ (demoHash 1)
      (Prod.ext (switchEpoch_spec _ _).1 rfl)).1 (demoNode 1).Bytes [3]
      (by simp [demoWorld, AList.lookup_insert])⟩

/-! ## Key layouts -/

theorem Uint64ToBytes_eq (v : Nat) : Uint64ToBytes v = BigEndianUint64 v := by
  simp [Uint64ToBytes, BigEndianUint64, List.range, List.range.loop]

theorem Uint64ToBytes_length (v : Nat) : (Uint64ToBytes v).length = 8 := rfl

theorem bigEndianValue_Uint64ToBytes (v : Nat) (hv : v < 2 ^ 64) :
    bigEndianValue (Uint64ToBytes v) = v := by
  simp only [bigEndianValue, Uint64ToBytes, List.foldl]
  omega

theorem Uint64ToBytes_injective (v1 v2 : Nat) (h1 : v1 < 2 ^ 64) (h2 : v2 < 2 ^ 64)
    (h : Uint64ToBytes v1 = Uint64ToBytes v2) : v1 = v2 := by
  rw [← bigEndianValue_Uint64ToBytes v1 h1, ← bigEndianValue_Uint64ToBytes v2 h2, h]

theorem int32ToUint64_lt (t : Int) : int32ToUint64 t < 2 ^ 64 := by
  unfold int32ToUint64
  omega

theorem int32ToUint64_injective (t1 t2 : Int) (h1 : -2 ^ 31 ≤ t1 ∧ t1 < 2 ^ 31)
    (h2 : -2 ^ 31 ≤ t2 ∧ t2 < 2 ^ 31) (h : int32ToUint64 t1 = int32ToUint64 t2) : t1 = t2 := by
  unfold int32ToUint64 at h
  omega

theorem mutiSignKey_eq_iff (a1 a2 : Address) (b1 b2 : Nat) (t1 t2 : Int)
    (hb1 : b1 < 2 ^ 64) (hb2 : b2 < 2 ^ 64)
    (ht1 : -2 ^ 31 ≤ t1 ∧ t1 < 2 ^ 31) (ht2 : -2 ^ 31 ≤ t2 ∧ t2 < 2 ^ 31)
    (h : mutiSignKey a1 b1 t1 = mutiSignKey a2 b2 t2) : a1 = a2 ∧ b1 = b2 ∧ t1 = t2 := by
  simp only [mutiSignKey, Address.Bytes, List.append_assoc] at h
  obtain ⟨ha, h⟩ := List.append_inj h (by rw [a1.size_eq, a2.size_eq])
  obtain ⟨hb, h⟩ := List.append_inj h rfl
  obtain ⟨_, ht⟩ := List.append_inj h rfl
  refine ⟨?_, Uint64ToBytes_injective b1 b2 hb1 hb2 hb, ?_⟩
  · cases a1; cases a2; simp_all
  · exact int32ToUint64_injective t1 t2 ht1 ht2
      (Uint64ToBytes_injective _ _ (int32ToUint64_lt t1) (int32ToUint64_lt t2) ht)

/-! ## Absence of panics -/

theorem classify_rate (env : Env L) (result : List (NodeID × Nat)) (nodeId : NodeID)
    (rate : Nat) (isDelete : Bool) (h : classify env result nodeId = (true, rate, isDelete)) :
    rate = blockAmountLowSlashing ∨ rate = blockAmountHighSlashing := by
  unfold classify at h
  split at h
  · split_ifs at h <;> simp_all
  · simp_all

theorem rlpDecodeUint16_no_panic (value : Bytes) : rlpDecodeUint16 value ≠ .panic := by
  unfold rlpDecodeUint16
  split <;> (try split_ifs) <;> simp

theorem getNodeId_no_panic (pfx key : Bytes) : getNodeId pfx key ≠ .panic := by
  unfold getNodeId
  cases h : BytesID (key.drop pfx.length) with
  | ok nodeId => simp [h]
  | err e => simp [h]
  | panic =>
    unfold BytesID at h
    split_ifs at h

theorem getPreNodeAmountLoop_no_panic (it : List (Bytes × Bytes)) (result : List (NodeID × Nat)) :
    getPreNodeAmountLoop it result ≠ .panic := by
  induction it generalizing result with
  | nil => simp [getPreNodeAmountLoop]
  | cons p it ih =>
    obtain ⟨key, value⟩ := p
    unfold getPreNodeAmountLoop
    have h1 := rlpDecodeUint16_no_panic value
    have h2 := getNodeId_no_panic preAbnormalPrefix key
    cases hd : rlpDecodeUint16 value with
    | panic => exact absurd hd h1
    | err e => simp
    | ok amount =>
      cases hn : getNodeId preAbnormalPrefix key with
      | panic => exact absurd hn h2
      | err e => simp
      | ok nodeId => simpa using ih _

theorem endBlockLoop_no_panic (env : Env L) (hs : ∀ l call, (env.SlashCandidates l call).1 ≠ .panic)
    (blockHash : Hash) (number : Nat)
    (result : List (NodeID × Nat)) (validators : List Candidate) (w : World L) :
    (endBlockLoop env blockHash number result validators w).1 ≠ .panic := by
  induction validators generalizing w with
  | nil => simp [endBlockLoop]
  | cons validator rest ih =>
    rcases hcl : classify env result validator.NodeId with ⟨isSlash, rate, isDelete⟩
    by_cases hc : isSlash = true ∧ rate > 0
    · obtain ⟨h1, h2⟩ := hc
      subst h1
      rw [endBlockLoop_slash env blockHash number result validator rest w rate isDelete h2 hcl]
      have hp := hs w.ledger
        ⟨blockHash, number, validator.NodeId, validator.total / (rate : Int), isDelete, .LowRatio⟩
      rcases hsl : w.SlashCandidates env
        ⟨blockHash, number, validator.NodeId, validator.total / (rate : Int), isDelete, .LowRatio⟩
        with ⟨r, w1⟩
      have hr : r = (env.SlashCandidates w.ledger
        ⟨blockHash, number, validator.NodeId, validator.total / (rate : Int), isDelete,
          .LowRatio⟩).1 := by
        have := congrArg Prod.fst hsl
        simpa [World.SlashCandidates] using this.symm
      cases r with
      | panic => exact absurd hr.symm hp
      | err e => simp
      | ok u => simpa using ih w1
    · have : endBlockLoop env blockHash number result (validator :: rest) w
          = endBlockLoop env blockHash number result rest w := by
        simp [endBlockLoop, hcl, hc]
      rw [this]
      exact ih w

theorem EndBlock_no_panic (env : Env L) (hp : collaboratorsNeverPanic env) (w : World L)
    (blockHash : Hash) (header : Header) :
    (EndBlock env w blockHash header).1 ≠ .panic := by
  obtain ⟨_, h2, _, h4⟩ := hp
  unfold EndBlock
  split_ifs with hc
  · have hg := getPreNodeAmountLoop_no_panic (iterEntries w.base preAbnormalPrefix) []
    unfold GetPreNodeAmount
    cases hr : getPreNodeAmountLoop (iterEntries w.base preAbnormalPrefix) [] with
    | panic => exact absurd hr hg
    | err e => simp
    | ok result =>
      simp only [World.GetCandidateONRound]
      have hv := h2 (w.emit (.dbWalk preAbnormalPrefix)).ledger blockHash header.Number
      cases hl : env.GetCandidateONRound (w.emit (.dbWalk preAbnormalPrefix)).ledger blockHash
          header.Number with
      | panic => exact absurd hl hv
      | err e => simp
      | ok validatorList => exact endBlockLoop_no_panic env h4 _ _ _ _ _
  · simp

theorem slashEvidence_no_panic (env : Env L) (hp : collaboratorsNeverPanic env)
    (blockHash : Hash) (blockNumber : Nat) (e : Evidence) (w : World L) :
    (slashEvidence env blockHash blockNumber e w).1 ≠ .panic := by
  obtain ⟨_, _, h3, h4⟩ := hp
  cases hv : e.Validate with
  | some err => rw [slashEvidence_invalid env blockHash blockNumber e w err hv]; simp
  | none =>
    by_cases hlen : 0 < (getSlashResult e.Address e.BlockNumber e.EType w).len
    · rw [slashEvidence_exists env blockHash blockNumber e w hv hlen]; simp
    · have hlen0 : (getSlashResult e.Address e.BlockNumber e.EType w).len = 0 := by omega
      cases hc : env.GetCandidateInfo w.ledger blockHash e.Address with
      | panic => exact absurd hc (h3 _ _ _)
      | err err => rw [slashEvidence_notfound env blockHash blockNumber e w err hv hlen0 hc]; simp
      | ok c =>
        rw [slashEvidence_resolved env blockHash blockNumber e c w hv hlen0 hc]
        have hs := h4 w.ledger (doubleSignCall blockHash blockNumber c)
        cases hr : (env.SlashCandidates w.ledger (doubleSignCall blockHash blockNumber c)).1 with
        | panic => exact absurd hr hs
        | err err => simp [World.SlashCandidates, World.emit, hr]
        | ok u => simp [World.SlashCandidates, World.emit, hr]

theorem slashLoop_no_panic (env : Env L) (hp : collaboratorsNeverPanic env)
    (blockHash : Hash) (blockNumber : Nat) (evidences : List Evidence) (w : World L) :
    (slashLoop env blockHash blockNumber evidences w).1 ≠ .panic := by
  induction evidences generalizing w with
  | nil => simp [slashLoop]
  | cons e rest ih =>
    have h := slashEvidence_no_panic env hp blockHash blockNumber e w
    unfold slashLoop
    rcases hr : slashEvidence env blockHash blockNumber e w with ⟨r, w1⟩
    rw [hr] at h
    cases r with
    | panic => exact absurd rfl h
    | err err => simp
    | ok u => simpa using ih w1

theorem Slash_no_panic (env : Env L) (hp : collaboratorsNeverPanic env) (data : String)
    (blockHash : Hash) (blockNumber : Nat) (w : World L) :
    (Slash env data blockHash blockNumber w).1 ≠ .panic := by
  cases hd : env.decodeEvidence data with
  | panic => exact absurd hd (hp.1 data)
  | err e => simp [Slash, hd]
  | ok evidences =>
    rw [Slash_decoded env data blockHash blockNumber w evidences hd]
    exact slashLoop_no_panic env hp blockHash blockNumber evidences w

/-! ## Policy failure -/

theorem endBlockLoop_policy_none (env : Env L) (blockHash : Hash) (number : Nat)
    (result : List (NodeID × Nat)) (validator : Candidate) (rest : List Candidate) (w : World L)
    (h : policyCall env blockHash number result validator = none) :
    endBlockLoop env blockHash number result (validator :: rest) w
      = endBlockLoop env blockHash number result rest w := by
  unfold policyCall at h
  rcases hcl : classify env result validator.NodeId with ⟨isSlash, rate, isDelete⟩
  rw [hcl] at h
  by_cases hc : isSlash = true ∧ 0 < rate
  · simp [hc] at h
  · have hc2 : ¬ (isSlash = true ∧ rate > 0) := hc
    simp [endBlockLoop, hcl, hc2]

theorem endBlockLoop_policy_some (env : Env L) (blockHash : Hash) (number : Nat)
    (result : List (NodeID × Nat)) (validator : Candidate) (rest : List Candidate) (w : World L)
    (call : SlashCall) (h : policyCall env blockHash number result validator = some call) :
    endBlockLoop env blockHash number result (validator :: rest) w
      = match w.SlashCandidates env call with
        | (.err e, w1) => (.err e, w1)
        | (.panic, w1) => (.panic, w1)
        | (.ok _, w1) => endBlockLoop env blockHash number result rest w1 := by
  unfold policyCall at h
  rcases hcl : classify env result validator.NodeId with ⟨isSlash, rate, isDelete⟩
  rw [hcl] at h
  by_cases hc : isSlash = true ∧ 0 < rate
  · simp only [hc, and_self, if_true, Option.some.injEq] at h
    subst h
    obtain ⟨h1, h2⟩ := hc
    subst h1
    exact endBlockLoop_slash env blockHash number result validator rest w rate isDelete h2 hcl
  · simp [hc] at h

theorem endBlockLoop_policy (env : Env L) (blockHash : Hash) (number : Nat)
    (result : List (NodeID × Nat)) (pre rest : List Candidate) (w : World L)
    (h : policySucceeds env blockHash number result pre w) :
    endBlockLoop env blockHash number result (pre ++ rest) w
      = endBlockLoop env blockHash number result rest
          (policyWorld env blockHash number result pre w) ∧
    slashCalls (policyWorld env blockHash number result pre w).trace
      = slashCalls w.trace ++ pre.filterMap (policyCall env blockHash number result) := by
  induction pre generalizing w with
  | nil => simp [policyWorld]
  | cons v pre ih =>
    cases hp : policyCall env blockHash number result v with
    | none =>
      simp only [policySucceeds, hp] at h
      obtain ⟨i1, i2⟩ := ih w h
      simp only [List.cons_append, policyWorld, hp, List.filterMap_cons]
      rw [endBlockLoop_policy_none env blockHash number result v _ w hp]
      exact ⟨i1, i2⟩
    | some call =>
      simp only [policySucceeds, hp] at h
      obtain ⟨hs, h⟩ := h
      obtain ⟨i1, i2⟩ := ih (policyStep env w call) h
      simp only [List.cons_append, policyWorld, hp, List.filterMap_cons]
      rw [endBlockLoop_policy_some env blockHash number result v _ w call hp]
      have hw : w.SlashCandidates env call = (.ok (), policyStep env w call) := by
        simp [World.SlashCandidates, policyStep, hs, Res.failed]
      rw [hw]
      refine ⟨i1, ?_⟩
      rw [i2]
      simp [policyStep, slashCalls_append, slashCalls]

/-- C13. At a policy block whose validator list is `pre`, then `v`, then `post`, where every
slash call prescribed for a validator of `pre` succeeds and the slash call prescribed for `v`
fails with `err`: `EndBlock` returns `(false, err)`; the slash calls it has made are those
that the classification prescribes for the validators of `pre`, in order, followed by the
failed call for `v`, and nothing follows the failed call in the trace, so that no call is
made for a validator of `post`. -/
theorem endBlock_slash_failure_aborts (env : Env L) (w : World L) (blockHash : Hash)
    (header : Header) (result : List (NodeID × Nat)) (pre : List Candidate) (v : Candidate)
    (post : List Candidate) (call : SlashCall) (err : Err)
    (hel : env.IsElection header.Number = true) (hn : header.Number > env.ConsensusSize)
    (hres : (GetPreNodeAmount w).1 = .ok result)
    (hval : env.GetCandidateONRound w.ledger blockHash header.Number = .ok (pre ++ v :: post))
    (hpre : policySucceeds env blockHash header.Number result pre
      ((w.emit (.dbWalk preAbnormalPrefix)).emit (.getCandidateONRound blockHash header.Number)))
    (hcall : policyCall env blockHash header.Number result v = some call)
    (hfail : (env.SlashCandidates
      (policyWorld env blockHash header.Number result pre
        ((w.emit (.dbWalk preAbnormalPrefix)).emit
          (.getCandidateONRound blockHash header.Number))).ledger call).1 = .err err) :
    (EndBlock env w blockHash header).1 = .err err ∧
    (EndBlock env w blockHash header).2.trace
      = (policyWorld env blockHash header.Number result pre
          ((w.emit (.dbWalk preAbnormalPrefix)).emit
            (.getCandidateONRound blockHash header.Number))).trace
        ++ [.slashCandidates call true] ∧
    slashCalls (EndBlock env w blockHash header).2.trace
      = slashCalls w.trace ++ pre.filterMap (policyCall env blockHash header.Number result)
        ++ [call] := by
  obtain ⟨h1, h2⟩ := endBlockLoop_policy env blockHash header.Number result pre (v :: post) _ hpre
  have hrun : EndBlock env w blockHash header
      = (.err err, { policyWorld env blockHash header.Number result pre
          ((w.emit (.dbWalk preAbnormalPrefix)).emit
            (.getCandidateONRound blockHash header.Number)) with
          ledger := (env.SlashCandidates (policyWorld env blockHash header.Number result pre
            ((w.emit (.dbWalk preAbnormalPrefix)).emit
              (.getCandidateONRound blockHash header.Number))).ledger call).2,
          trace := (policyWorld env blockHash header.Number result pre
            ((w.emit (.dbWalk preAbnormalPrefix)).emit
              (.getCandidateONRound blockHash header.Number))).trace
            ++ [.slashCandidates call true] }) := by
    rw [EndBlock_policy env w blockHash header result (pre ++ v :: post) hel hn hres hval, h1,
      endBlockLoop_policy_some env blockHash header.Number result v post _ call hcall]
    simp [World.SlashCandidates, hfail, Res.failed]
  rw [hrun]
  refine ⟨rfl, rfl, ?_⟩
  simp only [slashCalls_append, h2]
  simp [World.emit, slashCalls_append, slashCalls]

/-- Witness of C13: three active validators without count entry, of which the ledger refuses
to slash the second one. -/
theorem endBlock_slash_failure_aborts_witness :
    (EndBlock (demoFailingEnv [demoCandidate 3 1000, demoCandidate 4 1000, demoCandidate 5 1000])
      (demoWorld ∅ none) (demoHash 1) (demoHeader 480)).1 = .err (.plain "slash failed") ∧
    slashCalls (EndBlock
      (demoFailingEnv [demoCandidate 3 1000, demoCandidate 4 1000, demoCandidate 5 1000])
      (demoWorld ∅ none) (demoHash 1) (demoHeader 480)).2.trace
      = [⟨demoHash 1, 480, demoNode 3, 50, false, .LowRatio⟩,
         ⟨demoHash 1, 480, demoNode 4, 50, false, .LowRatio⟩] := by
  have h := endBlock_slash_failure_aborts
    (demoFailingEnv [demoCandidate 3 1000, demoCandidate 4 1000, demoCandidate 5 1000])
    (demoWorld ∅ none) (demoHash 1) (demoHeader 480) [] [demoCandidate 3 1000]
    (demoCandidate 4 1000) [demoCandidate 5 1000]
    ⟨demoHash 1, 480, demoNode 4, 50, false, .LowRatio⟩ (.plain "slash failed")
    rfl (by decide) rfl rfl ⟨rfl, trivial⟩ rfl rfl
  exact ⟨h.1, by rw [h.2.2]; rfl⟩

/-! ## Hooks outside of their trigger, decode failure -/

/-- C14. For every header whose number is at most the round length, and for every header whose
number is not an election block, `EndBlock` returns `(true, nil)` and leaves the state as it
is, the trace included: it makes no ledger call (neither the fetch of the validator set nor a
slash) and neither reads nor writes the counter store. -/
theorem endBlock_outside_policy (env : Env L) (w : World L) (blockHash : Hash) (header : Header)
    (h : header.Number ≤ env.ConsensusSize ∨ env.IsElection header.Number = false) :
    EndBlock env w blockHash header = (.ok (), w) := by
  unfold EndBlock
  rw [if_neg]
  rintro ⟨h1, h2⟩
  rcases h with h | h
  · omega
  · rw [h] at h1
    cases h1

/-- Witness of C14: block 230 of a chain with round length 250, an election block within the
first round. -/
theorem endBlock_outside_policy_witness :
    ((demoHeader 230).Number ≤ (demoEnv 250 25 [demoCandidate 3 1000] []).ConsensusSize ∨
      (demoEnv 250 25 [demoCandidate 3 1000] []).IsElection (demoHeader 230).Number = false) ∧
    EndBlock (demoEnv 250 25 [demoCandidate 3 1000] []) (demoWorld ∅ none) (demoHash 1)
      (demoHeader 230) = (.ok (), demoWorld ∅ none) :=
  ⟨Or.inl (by decide),
    endBlock_outside_policy (demoEnv 250 25 [demoCandidate 3 1000] []) (demoWorld ∅ none)
      (demoHash 1) (demoHeader 230) (Or.inl (by decide))⟩

/-- C15. When the injected decoder returns an error for the payload, `Slash` returns this error
and leaves the state as it is, the trace included: no evidence is validated, no ledger call
is made and the contract state is unchanged. -/
theorem slash_decode_failure (env : Env L) (data : String) (blockHash : Hash)
    (blockNumber : Nat) (w : World L) (e : Err) (h : env.decodeEvidence data = .err e) :
    Slash env data blockHash blockNumber w = (.err e, w) := by
  simp [Slash, h]

/-- Witness of C15: a decoder that rejects every payload. -/
theorem slash_decode_failure_witness :
    ({ demoEnv 250 25 [demoCandidate 3 1000] [] with
        decodeEvidence := fun _ => .err (.plain "invalid evidence") } : Env Nat).decodeEvidence
      "junk" = .err (.plain "invalid evidence") ∧
    Slash { demoEnv 250 25 [demoCandidate 3 1000] [] with
        decodeEvidence := fun _ => .err (.plain "invalid evidence") } "junk" (demoHash 1) 500
      (demoWorld ∅ none) = (.err (.plain "invalid evidence"), demoWorld ∅ none) :=
  ⟨rfl, slash_decode_failure _ "junk" (demoHash 1) 500 (demoWorld ∅ none)
    (.plain "invalid evidence") rfl⟩

/-! ## Key layouts and rates -/

/-- C16. For every 20-byte address `a`, block number `b` below 2^64 and `int32` evidence type
`t`, `mutiSignKey a b t` is the 37-byte string made of `a`, the big-endian encoding of `b`
on 8 bytes, the byte of "_" and the big-endian encoding on 8 bytes of `t` converted to
`uint64` (`t` itself when it is not negative, `2^64 + t` when it is); and `curKey id` is
"SlashCb" followed by `id`, `preKey id` is "SlashPb" followed by `id`. -/
theorem key_layouts (a : Address) (b : Nat) (t : Int) (id : Bytes) (hb : b < 2 ^ 64)
    (ht : -2 ^ 31 ≤ t ∧ t < 2 ^ 31) :
    mutiSignKey a b t
      = a.Bytes ++ BigEndianUint64 b ++ "_".toList.map Char.toNat
          ++ BigEndianUint64 (int32ToUint64 t) ∧
    a.Bytes.length = 20 ∧
    (mutiSignKey a b t).length = 37 ∧
    bigEndianValue (BigEndianUint64 b) = b ∧
    bigEndianValue (BigEndianUint64 (int32ToUint64 t)) = int32ToUint64 t ∧
    (0 ≤ t → (int32ToUint64 t : Int) = t) ∧
    (t < 0 → (int32ToUint64 t : Int) = 2 ^ 64 + t) ∧
    curKey id = "SlashCb".toList.map Char.toNat ++ id ∧
    preKey id = "SlashPb".toList.map Char.toNat ++ id := by
  have hu : "_".toList.map Char.toNat = [95] := by decide
  have hc : "SlashCb".toList.map Char.toNat = curAbnormalPrefix := by decide
  have hp : "SlashPb".toList.map Char.toNat = preAbnormalPrefix := by decide
  refine ⟨?_, a.size_eq, ?_, ?_, ?_, ?_, ?_, ?_, ?_⟩
  · rw [hu, ← Uint64ToBytes_eq, ← Uint64ToBytes_eq]
    rfl
  · simp [mutiSignKey, Address.Bytes, a.size_eq, Uint64ToBytes_length]
  · rw [← Uint64ToBytes_eq]
    exact bigEndianValue_Uint64ToBytes b hb
  · rw [← Uint64ToBytes_eq]
    exact bigEndianValue_Uint64ToBytes _ (int32ToUint64_lt t)
  · intro h0
    unfold int32ToUint64
    omega
  · intro h0
    unfold int32ToUint64
    omega
  · rw [hc]; rfl
  · rw [hp]; rfl

/-- Witness of C16: block number 258 and evidence type -1. -/
theorem key_layouts_witness :
    (258 : Nat) < 2 ^ 64 ∧ (-2 ^ 31 ≤ (-1 : Int) ∧ (-1 : Int) < 2 ^ 31) ∧
    mutiSignKey (demoAddr 7) 258 (-1)
      = List.replicate 20 7 ++ [0, 0, 0, 0, 0, 0, 1, 2] ++ [95]
          ++ [255, 255, 255, 255, 255, 255, 255, 255] := by
  have h := key_layouts (demoAddr 7) 258 (-1) [] (by norm_num) (by norm_num)
  refine ⟨by norm_num, by norm_num, ?_⟩
  rw [h.1]
  rfl

/-- C17. Every rate that the classification of `EndBlock` yields with `isSlash` is
`blockAmountLowSlashing` or `blockAmountHighSlashing`, hence above zero, and the rate
`duplicateSignLowSlashing` that `Slash` passes is above zero, so that `calcSlashAmount` does
not divide by zero at these calls; as a result, when the collaborators do not panic, neither
`EndBlock` nor `Slash` panics on any input. -/
theorem rate_never_zero (env : Env L) (hp : collaboratorsNeverPanic env) :
    (∀ result nodeId rate isDelete (validator : Candidate),
      classify env result nodeId = (true, rate, isDelete) →
        (rate = blockAmountLowSlashing ∨ rate = blockAmountHighSlashing) ∧ 0 < rate ∧
          calcSlashAmount validator rate ≠ none) ∧
    (0 < duplicateSignLowSlashing ∧ ∀ c, calcSlashAmount c duplicateSignLowSlashing ≠ none) ∧
    (∀ w blockHash header, (EndBlock env w blockHash header).1 ≠ .panic) ∧
    (∀ data blockHash blockNumber w, (Slash env data blockHash blockNumber w).1 ≠ .panic) := by
  refine ⟨?_, ⟨by decide, ?_⟩, EndBlock_no_panic env hp, Slash_no_panic env hp⟩
  · intro result nodeId rate isDelete validator h
    have hr := classify_rate env result nodeId rate isDelete h
    have hpos : 0 < rate := by
      rcases hr with h1 | h1 <;> rw [h1] <;> decide
    refine ⟨hr, hpos, ?_⟩
    rw [calcSlashAmount_eq validator rate hpos]
    simp
  · intro c
    rw [calcSlashAmount_eq c duplicateSignLowSlashing (by decide)]
    simp

theorem demoEnv_never_panics (R V : Nat) (validators : List Candidate)
    (evidences : List Evidence) : collaboratorsNeverPanic (demoEnv R V validators evidences) := by
  refine ⟨fun _ => by simp [demoEnv], fun _ _ _ => by simp [demoEnv], fun _ _ _ => ?_,
    fun _ _ => by simp [demoEnv]⟩
  cases validators <;> simp [demoEnv]

/-- Witness of C17: the collaborators of `demoEnv` never panic. -/
theorem rate_never_zero_witness :
    collaboratorsNeverPanic (demoEnv 250 25 [demoCandidate 3 1000] [demoEvidence 1 7]) ∧
    (Slash (demoEnv 250 25 [demoCandidate 3 1000] [demoEvidence 1 7]) "" (demoHash 1) 500
      (demoWorld ∅ none)).1 ≠ .panic :=
  ⟨demoEnv_never_panics _ _ _ _,
    (rate_never_zero (demoEnv 250 25 [demoCandidate 3 1000] [demoEvidence 1 7])
      (demoEnv_never_panics _ _ _ _)).2.2.2 "" (demoHash 1) 500 (demoWorld ∅ none)⟩

/-- C18. For 20-byte addresses, block numbers below 2^64 and `int32` evidence types, equal
result keys come from equal addresses, block numbers and types; hence the record written for
one triple leaves the value that the guard of `Slash` reads for a different triple as it
was. -/
theorem mutiSignKey_injective (a1 a2 : Address) (b1 b2 : Nat) (t1 t2 : Int)
    (hb1 : b1 < 2 ^ 64) (hb2 : b2 < 2 ^ 64)
    (ht1 : -2 ^ 31 ≤ t1 ∧ t1 < 2 ^ 31) (ht2 : -2 ^ 31 ≤ t2 ∧ t2 < 2 ^ 31) :
    (mutiSignKey a1 b1 t1 = mutiSignKey a2 b2 t2 → a1 = a2 ∧ b1 = b2 ∧ t1 = t2) ∧
    (¬ (a1 = a2 ∧ b1 = b2 ∧ t1 = t2) → ∀ w : World L,
      getSlashResult a2 b2 t2 (putSlashResult a1 b1 t1 w) = getSlashResult a2 b2 t2 w) := by
  have hinj := mutiSignKey_eq_iff a1 a2 b1 b2 t1 t2 hb1 hb2 ht1 ht2
  refine ⟨hinj, ?_⟩
  intro hne w
  have hk : mutiSignKey a2 b2 t2 ≠ mutiSignKey a1 b1 t1 := fun h => hne (hinj h.symm)
  simp [getSlashResult, putSlashResult, World.GetState, World.SetState, hk]

/-- Witness of C18: the record of block number 7 does not touch the record of block number 8. -/
theorem mutiSignKey_injective_witness :
    (7 : Nat) < 2 ^ 64 ∧ (8 : Nat) < 2 ^ 64 ∧ (-2 ^ 31 ≤ (1 : Int) ∧ (1 : Int) < 2 ^ 31) ∧
    getSlashResult (demoAddr 1) 8 1 (putSlashResult (demoAddr 1) 7 1 (demoWorld ∅ none))
      = getSlashResult (demoAddr 1) 8 1 (demoWorld ∅ none) :=
  ⟨by norm_num, by norm_num, by norm_num,
    (mutiSignKey_injective (demoAddr 1) (demoAddr 1) 7 8 1 1 (by norm_num) (by norm_num)
      (by norm_num) (by norm_num)).2 (by norm_num) (demoWorld ∅ none)⟩

/-- C19, evaluated on the code: in a contract state whose `GetState` returns the empty non-nil
slice for a key that was never written, `CheckMutiSign` reports that a record exists, whereas
`Slash` does not reject a valid evidence with the same triple: the test of `CheckMutiSign`
(the value is not nil) and the test of `Slash` (the length of the value is above zero) differ
on the empty non-nil slice, and on this value only. -/
theorem slash_guard_and_query_disagree :
    (CheckMutiSign (demoAddr 1) 7 1 (demoWorld ∅ (some []))).1.1 = true ∧
    (demoEvidence 1 7).Validate = none ∧
    (slashEvidence (demoEnv 250 25 [demoCandidate 3 1000] []) (demoHash 1) 500
      (demoEvidence 1 7) (demoWorld ∅ (some []))).1 = .ok () ∧
    ((some [] : GoBytes) ≠ none ∧ ¬ 0 < GoBytes.len (some [])) ∧
    (∀ v : GoBytes, v ≠ some [] → (v ≠ none ↔ 0 < v.len)) := by
  refine ⟨rfl, rfl, rfl, ⟨by simp, by simp [GoBytes.len]⟩, ?_⟩
  intro v hv
  cases v with
  | none => simp [GoBytes.len]
  | some l =>
    cases l with
    | nil => exact absurd rfl hv
    | cons x xs => simp [GoBytes.len]

/-- C20. For a candidate with non-negative stake components and rates `0 < r1 ≤ r2`, the amount
at rate `r2` is at most the amount at rate `r1`, which is at most the total stake; hence the
amount of the severe under-production tier (rate 20) is at most the amount of the mild tier
(rate 10), and strictly smaller when the total stake is at least 10. -/
theorem calcSlashAmount_antitone (c : Candidate) (r1 r2 : Nat)
    (h1 : 0 ≤ c.Released) (h2 : 0 ≤ c.ReleasedHes) (h3 : 0 ≤ c.RestrictingPlan)
    (h4 : 0 ≤ c.RestrictingPlanHes) (hr1 : 0 < r1) (hr : r1 ≤ r2) :
    (∃ a1 a2, calcSlashAmount c r1 = some a1 ∧ calcSlashAmount c r2 = some a2 ∧
      a2 ≤ a1 ∧ a1 ≤ c.Released + c.ReleasedHes + c.RestrictingPlan + c.RestrictingPlanHes) ∧
    (∃ mild severe, calcSlashAmount c blockAmountLowSlashing = some mild ∧
      calcSlashAmount c blockAmountHighSlashing = some severe ∧ severe ≤ mild ∧
      (10 ≤ c.Released + c.ReleasedHes + c.RestrictingPlan + c.RestrictingPlanHes →
        severe < mild)) ∧
    blockAmountLowSlashing = 10 ∧ blockAmountHighSlashing = 20 := by
  have ht : 0 ≤ c.total := by unfold Candidate.total; omega
  refine ⟨⟨_, _, calcSlashAmount_eq c r1 hr1, calcSlashAmount_eq c r2 (by omega), ?_, ?_⟩,
    ⟨_, _, calcSlashAmount_eq c blockAmountLowSlashing (by decide),
      calcSlashAmount_eq c blockAmountHighSlashing (by decide), ?_, ?_⟩, rfl, rfl⟩
  · obtain ⟨n, hn⟩ := Int.eq_ofNat_of_zero_le ht
    rw [hn]
    have := Nat.div_le_div_left (a := n) hr hr1
    exact_mod_cast this
  · exact Int.ediv_le_self _ ht
  · show c.total / ((20 : Nat) : Int) ≤ c.total / ((10 : Nat) : Int)
    push_cast
    omega
  · intro h10
    show c.total / ((20 : Nat) : Int) < c.total / ((10 : Nat) : Int)
    have : 10 ≤ c.total := h10
    push_cast
    omega

/-- Witness of C20: a stake of 1000 at the rates 10 and 20. -/
theorem calcSlashAmount_antitone_witness :
    (0 : Nat) < 10 ∧ (10 : Nat) ≤ 20 ∧
    ∃ a1 a2, calcSlashAmount (demoCandidate 3 1000) 10 = some a1 ∧
      calcSlashAmount (demoCandidate 3 1000) 20 = some a2 ∧ a2 ≤ a1 ∧
      a1 ≤ (demoCandidate 3 1000).Released + (demoCandidate 3 1000).ReleasedHes
        + (demoCandidate 3 1000).RestrictingPlan + (demoCandidate 3 1000).RestrictingPlanHes :=
  ⟨by decide, by decide,
    (calcSlashAmount_antitone (demoCandidate 3 1000) 10 20 (by decide) (by decide) (by decide)
      (by decide) (by decide) (by decide)).1⟩

/-! ## Round arithmetic -/

theorem rotation_cond (R n : Nat) (hR : 1 < R) :
    ((n + 1) % R = 1 ∧ n + 1 > 1) ↔ (n % R = 0 ∧ 0 < n) := by
  have hmod : (n + 1) % R = (n % R + 1) % R := by
    rw [Nat.add_mod, Nat.mod_eq_of_lt hR]
  have hlt : n % R < R := Nat.mod_lt _ (by omega)
  constructor
  · rintro ⟨h1, h2⟩
    refine ⟨?_, by omega⟩
    rw [hmod] at h1
    by_cases hc : n % R + 1 < R
    · rw [Nat.mod_eq_of_lt hc] at h1
      omega
    · have he : n % R + 1 = R := by omega
      rw [he, Nat.mod_self] at h1
      omega
  · rintro ⟨h1, h2⟩
    refine ⟨?_, by omega⟩
    rw [hmod, h1]
    exact Nat.mod_eq_of_lt hR

theorem roundStart_rot (R n : Nat) (hR : 1 < R) (h0 : n % R = 0) (hn : 0 < n) :
    roundStart R (n + 1) = n + 1 ∧ roundStart R n = n - R + 1 ∧ R ≤ n := by
  have hdvd : n / R * R = n := Nat.div_mul_cancel (Nat.dvd_of_mod_eq_zero h0)
  have hk : 0 < n / R := by
    rcases Nat.eq_zero_or_pos (n / R) with h | h
    · rw [h] at hdvd; omega
    · exact h
  have hsucc : n / R * R = (n / R - 1) * R + R := by
    have : n / R = (n / R - 1) + 1 := by omega
    conv_lhs => rw [this, Nat.succ_mul]
  have hq : (n - 1) / R = n / R - 1 := by
    apply Nat.div_eq_of_lt_le
    · omega
    · have : (n / R - 1 + 1) * R = (n / R - 1) * R + R := Nat.succ_mul _ _
      omega
  refine ⟨?_, ?_, ?_⟩
  · simp only [roundStart, Nat.add_sub_cancel, hdvd]
  · simp only [roundStart, hq]
    omega
  · omega

theorem roundStart_norot (R n : Nat) (hR : 1 < R) (h : ¬ (n % R = 0 ∧ 0 < n)) :
    roundStart R (n + 1) = roundStart R n ∧ roundStart R n - 1 ≤ n ∧
      n - (roundStart R n - 1) < R ∧ n ≠ R := by
  have hle : (n - 1) / R * R ≤ n - 1 := Nat.div_mul_le_self _ _
  by_cases hn : n = 0
  · subst hn
    simp [roundStart]
    omega
  · have hr : n % R ≠ 0 := fun h0 => h ⟨h0, by omega⟩
    have hlt : n % R < R := Nat.mod_lt _ (by omega)
    have hdm : R * (n / R) + n % R = n := Nat.div_add_mod n R
    have hcomm : R * (n / R) = n / R * R := Nat.mul_comm _ _
    have hq : (n - 1) / R = n / R := by
      apply Nat.div_eq_of_lt_le
      · omega
      · have : (n / R + 1) * R = n / R * R + R := Nat.succ_mul _ _
        omega
    refine ⟨?_, ?_, ?_, ?_⟩
    · simp only [roundStart, Nat.add_sub_cancel, hq]
    · simp only [roundStart]; omega
    · simp only [roundStart, hq]; omega
    · intro hnR
      rw [hnR, Nat.mod_self] at hr
      exact hr rfl

theorem curList_pre_snoc (R : Nat) (hR : 1 < R) (ps : List NodeID) (p : NodeID) :
    (ps.length % R = 0 ∧ 0 < ps.length →
      curList R (ps ++ [p]) = [p] ∧ preList R (ps ++ [p]) = curList R ps) ∧
    (¬ (ps.length % R = 0 ∧ 0 < ps.length) →
      curList R (ps ++ [p]) = curList R ps ++ [p] ∧ preList R (ps ++ [p]) = preList R ps ∧
        (curList R ps).length < R) := by
  constructor
  · rintro ⟨h0, hn⟩
    obtain ⟨h1, h2, h3⟩ := roundStart_rot R ps.length hR h0 hn
    constructor
    · simp only [curList, producedIn, List.length_append, List.length_singleton, h1,
        Nat.add_sub_cancel]
      rw [List.take_of_length_le (by simp), List.drop_left]
    · have hlen : (ps ++ [p]).length = ps.length + 1 := by simp
      have hgt : ps.length + 1 > R := by omega
      unfold preList
      rw [hlen, if_pos hgt, h1]
      unfold curList producedIn
      rw [h2, Nat.add_sub_cancel, List.take_left, List.take_of_length_le (le_refl _)]
      congr 1
      omega
  · intro h
    obtain ⟨h1, h2, h3, h4⟩ := roundStart_norot R ps.length hR h
    refine ⟨?_, ?_, ?_⟩
    · simp only [curList, producedIn, List.length_append, List.length_singleton, h1]
      rw [List.take_of_length_le (by simp), List.take_of_length_le (le_refl _),
        List.drop_append_of_le_length h2]
    · simp only [preList, List.length_append, List.length_singleton, h1]
      by_cases hgt : ps.length > R
      · have hgt2 : ps.length + 1 > R := by omega
        rw [if_pos hgt, if_pos hgt2]
        simp only [producedIn]
        rw [List.take_append_of_le_length h2]
      · have hgt2 : ¬ ps.length + 1 > R := by omega
        rw [if_neg hgt, if_neg hgt2]
    · simp only [curList, producedIn]
      rw [List.take_of_length_le (le_refl _), List.length_drop]
      exact h3

/-! ## Block confirmation -/

theorem getBlockAmount_stored (env : Env L) (w : World L) (blockHash : Hash) (header : Header)
    (id : NodeID) (hp : parseNodeId env header = .ok id) :
    getBlockAmount env w blockHash header
      = (storedCount w.base (curKey id.Bytes), w.emit (.dbGet blockHash (curKey id.Bytes))) := by
  unfold storedCount
  cases hl : w.base.lookup (curKey id.Bytes) with
  | none => simp [getBlockAmount, hp, World.Get, hl]
  | some value =>
    cases hd : rlpDecodeUint16 value <;> simp [getBlockAmount, hp, World.Get, hl, hd]

theorem setBlockAmount_stored (env : Env L) (w : World L) (blockHash : Hash) (header : Header)
    (id : NodeID) (hp : parseNodeId env header = .ok id) :
    (∀ c, storedCount w.base (curKey id.Bytes) = .ok c →
      (setBlockAmount env w blockHash header).1 = .ok () ∧
      (setBlockAmount env w blockHash header).2.base
        = w.base.insert (curKey id.Bytes) (rlpEncodeUint16 ((c + 1) % 65536))) ∧
    (∀ c, (setBlockAmount env w blockHash header).1 = .ok () →
      storedCount w.base (curKey id.Bytes) = .ok c →
      (setBlockAmount env w blockHash header).2.base
        = w.base.insert (curKey id.Bytes) (rlpEncodeUint16 ((c + 1) % 65536))) ∧
    ((setBlockAmount env w blockHash header).1 = .ok () →
      ∃ c, storedCount w.base (curKey id.Bytes) = .ok c) := by
  have hg := getBlockAmount_stored env w blockHash header id hp
  have h1 : ∀ c, storedCount w.base (curKey id.Bytes) = .ok c →
      (setBlockAmount env w blockHash header).1 = .ok () ∧
      (setBlockAmount env w blockHash header).2.base
        = w.base.insert (curKey id.Bytes) (rlpEncodeUint16 ((c + 1) % 65536)) := by
    intro c hc
    rw [hc] at hg
    simp [setBlockAmount, hp, hg, World.PutBaseDB, World.emit]
  refine ⟨h1, fun c _ hc => (h1 c hc).2, ?_⟩
  intro hok
  cases hs : storedCount w.base (curKey id.Bytes) with
  | ok c => exact ⟨c, rfl⟩
  | err e =>
    rw [hs] at hg
    simp [setBlockAmount, hp, hg] at hok
  | panic =>
    rw [hs] at hg
    simp [setBlockAmount, hp, hg] at hok

theorem switchEpoch_rotate (w : World L) (blockHash : Hash) :
    (switchEpoch w blockHash).1 = none ∧ (switchEpoch w blockHash).2.base = rotate w.base :=
  switchEpoch_spec w blockHash

theorem rotate_lookup (b : BaseDB) :
    (∀ k, (rotate b).lookup (preKey k) = b.lookup (curKey k)) ∧
    (∀ k, (rotate b).lookup (curKey k) = none) ∧
    (∀ key, ¬ curAbnormalPrefix <+: key → ¬ preAbnormalPrefix <+: key →
      (rotate b).lookup key = b.lookup key) := by
  obtain ⟨h1, h2, h3, h4⟩ := rotation_lookup b
  refine ⟨?_, fun k => h2 (curKey k) ⟨k, rfl⟩, h4⟩
  intro k
  cases hb : b.lookup (curKey k) with
  | some v => exact h1 k v hb
  | none =>
    cases hl : (rotate b).lookup (preKey k) with
    | none => rfl
    | some v =>
      obtain ⟨k1, hk1, hv⟩ := h3 (preKey k) v ⟨k, rfl⟩ hl
      rw [← preKey_injective _ _ hk1, hb] at hv
      cases hv

theorem Confirmed_rot (env : Env L) (w : World L) (block : Block) (p : NodeID)
    (hc : block.NumberU64 % env.ConsensusSize = 1 ∧ block.NumberU64 > 1)
    (hp : parseNodeId env block.Header = .ok p) :
    (Confirmed env w block).1 = .ok () ∧
    (Confirmed env w block).2.base
      = (rotate w.base).insert (curKey p.Bytes) (rlpEncodeUint16 1) := by
  obtain ⟨h1, h2⟩ := switchEpoch_rotate w block.Hash
  rcases hs : switchEpoch w block.Hash with ⟨r, w1⟩
  rw [hs] at h1 h2
  simp only at h1 h2
  subst h1
  have hst : storedCount w1.base (curKey p.Bytes) = .ok 0 := by
    simp [storedCount, h2, (rotate_lookup w.base).2.1]
  obtain ⟨h3, h4⟩ := (setBlockAmount_stored env w1 block.Hash block.Header p hp).1 0 hst
  simp only [Confirmed, if_pos hc, hs]
  rw [h4, h2]
  exact ⟨h3, rfl⟩

theorem Confirmed_norot (env : Env L) (w : World L) (block : Block)
    (hc : ¬ (block.NumberU64 % env.ConsensusSize = 1 ∧ block.NumberU64 > 1)) :
    Confirmed env w block = setBlockAmount env w block.Hash block.Header := by
  simp only [Confirmed, if_neg hc]

theorem rlpDecodeUint16_lt (value : Bytes) (c : Nat) (h : rlpDecodeUint16 value = .ok c) :
    c < 65536 := by
  unfold rlpDecodeUint16 at h
  split at h
  · split_ifs at h <;> simp at h <;> omega
  · split_ifs at h
    simp at h
    omega
  · split_ifs at h
    simp at h
    omega
  · simp at h

theorem storedCount_lt (b : BaseDB) (key : Bytes) (c : Nat) (h : storedCount b key = .ok c) :
    c < 65536 := by
  unfold storedCount at h
  split at h
  · simp at h; omega
  · exact rlpDecodeUint16_lt _ c h

theorem storedCount_insert (b : BaseDB) (key : Bytes) (c : Nat) (hc : c < 65536) :
    storedCount (b.insert key (rlpEncodeUint16 c)) key = .ok c := by
  simp [storedCount, AList.lookup_insert, rlp_roundtrip c hc]

theorem curKey_ne_preKey (x y : Bytes) : preKey x ≠ curKey y := by
  intro h
  exact prefixes_disjoint (curKey y) ⟨y, rfl⟩ ⟨x, by rw [← h]; rfl⟩

theorem windowIs_insert_cur (b : BaseDB) (l : List NodeID) (p : NodeID)
    (h : windowIs b curAbnormalPrefix l) :
    windowIs (b.insert (curKey p.Bytes)
      (rlpEncodeUint16 ((l.countP fun v => decide (v.Bytes = p.Bytes)) + 1)))
      curAbnormalPrefix (l ++ [p]) := by
  intro suffix
  by_cases hs : suffix = p.Bytes
  · subst hs
    have : curAbnormalPrefix ++ p.Bytes = curKey p.Bytes := rfl
    rw [this, AList.lookup_insert]
    simp [encCount, List.countP_append, List.countP_cons]
  · have hne : curAbnormalPrefix ++ suffix ≠ curKey p.Bytes := by
      intro heq
      exact hs (List.append_cancel_left heq)
    rw [AList.lookup_insert_ne hne, h suffix]
    have : ¬ p.Bytes = suffix := fun h => hs h.symm
    simp [List.countP_append, List.countP_cons, this]

theorem windowIs_insert_pre (b : BaseDB) (l : List NodeID) (x value : Bytes)
    (h : windowIs b preAbnormalPrefix l) :
    windowIs (b.insert (curKey x) value) preAbnormalPrefix l := by
  intro suffix
  have hne : preAbnormalPrefix ++ suffix ≠ curKey x := curKey_ne_preKey suffix x
  rw [AList.lookup_insert_ne hne, h suffix]

theorem windowIs_rotate (b : BaseDB) (l : List NodeID) (h : windowIs b curAbnormalPrefix l) :
    windowIs (rotate b) preAbnormalPrefix l ∧ windowIs (rotate b) curAbnormalPrefix [] := by
  obtain ⟨h1, h2, _⟩ := rotate_lookup b
  constructor
  · intro suffix
    have := h1 suffix
    unfold preKey at this
    rw [this]
    exact h suffix
  · intro suffix
    have := h2 suffix
    unfold curKey at this
    rw [this]
    simp [encCount]

theorem storedCount_window (b : BaseDB) (l : List NodeID) (p : NodeID)
    (h : windowIs b curAbnormalPrefix l)
    (hc : (l.countP fun v => decide (v.Bytes = p.Bytes)) < 65536) :
    storedCount b (curKey p.Bytes) = .ok (l.countP fun v => decide (v.Bytes = p.Bytes)) := by
  have := h p.Bytes
  unfold storedCount curKey
  rw [this]
  unfold encCount
  split_ifs with h0
  · simp [h0]
  · simp [rlp_roundtrip _ hc]

theorem confirmAll_append (env : Env L) (bs rest : List Block) (w : World L)
    (h : (confirmAll env bs w).1 = .ok ()) :
    confirmAll env (bs ++ rest) w = confirmAll env rest (confirmAll env bs w).2 := by
  induction bs generalizing w with
  | nil => rfl
  | cons b bs ih =>
    simp only [List.cons_append, confirmAll] at h ⊢
    rcases hc : Confirmed env w b with ⟨r, w1⟩
    rw [hc] at h
    cases r with
    | ok u => simpa using ih w1 (by simpa using h)
    | err e => simp at h
    | panic => simp at h

theorem chain_append (env : Env L) (n : Nat) (items : List (Block × NodeID))
    (x : Block × NodeID) :
    chain env n (items ++ [x]) ↔
      chain env n items ∧ x.1.NumberU64 = n + items.length + 1 ∧
        parseNodeId env x.1.Header = .ok x.2 := by
  induction items generalizing n with
  | nil =>
    obtain ⟨b, p⟩ := x
    simp [chain]
  | cons y items ih =>
    obtain ⟨b, p⟩ := y
    have hstep : chain env n ((b, p) :: (items ++ [x])) ↔
        (b.NumberU64 = n + 1 ∧ parseNodeId env b.Header = .ok p ∧
          chain env (n + 1) (items ++ [x])) := Iff.rfl
    have hstep2 : chain env n ((b, p) :: items) ↔
        (b.NumberU64 = n + 1 ∧ parseNodeId env b.Header = .ok p ∧
          chain env (n + 1) items) := Iff.rfl
    rw [List.cons_append, hstep, hstep2, ih, List.length_cons]
    constructor
    · rintro ⟨h1, h2, h3, h4, h5⟩
      exact ⟨⟨h1, h2, h3⟩, by omega, h5⟩
    · rintro ⟨⟨h1, h2, h3⟩, h4, h5⟩
      exact ⟨h1, h2, h3, by omega, h5⟩

theorem confirmAll_windows (env : Env L) (hR : 1 < env.ConsensusSize)
    (hR2 : env.ConsensusSize ≤ 65535) (items : List (Block × NodeID)) (w : World L)
    (hcur : windowIs w.base curAbnormalPrefix []) (hpre : windowIs w.base preAbnormalPrefix [])
    (hch : chain env 0 items) :
    (confirmAll env (items.map Prod.fst) w).1 = .ok () ∧
    windowIs (confirmAll env (items.map Prod.fst) w).2.base curAbnormalPrefix
      (curList env.ConsensusSize (items.map Prod.snd)) ∧
    windowIs (confirmAll env (items.map Prod.fst) w).2.base preAbnormalPrefix
      (preList env.ConsensusSize (items.map Prod.snd)) := by
  induction items using List.reverseRecOn with
  | nil =>
    refine ⟨rfl, ?_, ?_⟩
    · simpa [confirmAll, curList, producedIn] using hcur
    · simpa [confirmAll, preList] using hpre
  | append_singleton items x ih =>
    obtain ⟨b, p⟩ := x
    obtain ⟨hch1, hnum, hp⟩ := (chain_append env 0 items (b, p)).mp hch
    obtain ⟨hok, hwc, hwp⟩ := ih hch1
    simp only at hnum hp
    have hlen : (items.map Prod.snd).length = items.length := by simp
    obtain ⟨hrot, hnorot⟩ := curList_pre_snoc env.ConsensusSize hR (items.map Prod.snd) p
    rw [hlen] at hrot hnorot
    simp only [List.map_append, List.map_cons, List.map_nil]
    rw [confirmAll_append env _ [b] w hok]
    generalize (confirmAll env (items.map Prod.fst) w).2 = w1 at hwc hwp ⊢
    have hcond := rotation_cond env.ConsensusSize items.length hR
    by_cases hc : items.length % env.ConsensusSize = 0 ∧ 0 < items.length
    · have hc2 : b.NumberU64 % env.ConsensusSize = 1 ∧ b.NumberU64 > 1 := by
        rw [hnum]
        have := hcond.mpr hc
        simpa using this
      obtain ⟨h1, h2⟩ := Confirmed_rot env w1 b p hc2 hp
      obtain ⟨hl1, hl2⟩ := hrot hc
      obtain ⟨hr1, hr2⟩ := windowIs_rotate w1.base _ hwc
      rcases hcf : Confirmed env w1 b with ⟨r, w2⟩
      rw [hcf] at h1 h2
      simp only at h1 h2
      subst h1
      simp only [confirmAll, hcf]
      rw [hl1, hl2, h2]
      refine ⟨trivial, ?_, ?_⟩
      · have := windowIs_insert_cur (rotate w1.base) [] p hr2
        simpa using this
      · exact windowIs_insert_pre _ _ _ _ hr1
    · have hc2 : ¬ (b.NumberU64 % env.ConsensusSize = 1 ∧ b.NumberU64 > 1) := by
        rw [hnum]
        intro h
        exact hc (hcond.mp (by simpa using h))
      obtain ⟨hl1, hl2, hl3⟩ := hnorot hc
      have hcount : (List.countP (fun v => decide (v.Bytes = p.Bytes))
          (curList env.ConsensusSize (items.map Prod.snd))) < 65535 := by
        have := List.countP_le_length (fun v => decide (v.Bytes = p.Bytes))
          (l := curList env.ConsensusSize (items.map Prod.snd))
        omega
      have hst := storedCount_window w1.base _ p hwc (by omega)
      obtain ⟨h1, h2⟩ := (setBlockAmount_stored env w1 b.Hash b.Header p hp).1 _ hst
      rw [← Confirmed_norot env w1 b hc2] at h1 h2
      rcases hcf : Confirmed env w1 b with ⟨r, w2⟩
      rw [hcf] at h1 h2
      simp only at h1 h2
      subst h1
      simp only [confirmAll, hcf]
      rw [hl1, hl2, h2, Nat.mod_eq_of_lt (by omega)]
      exact ⟨trivial, windowIs_insert_cur w1.base _ p hwc, windowIs_insert_pre _ _ _ _ hwp⟩

theorem countP_bytes (l : List NodeID) (v : NodeID) :
    (l.countP fun x => decide (x.Bytes = v.Bytes)) = l.count v := by
  unfold List.count
  apply List.countP_congr
  intro x _
  cases x; cases v
  simp [NodeID.Bytes]

theorem curList_length_le (R : Nat) (hR : 1 < R) (ps : List NodeID) :
    (curList R ps).length ≤ R := by
  induction ps using List.reverseRecOn with
  | nil => simp [curList, producedIn]
  | append_singleton ps p _ =>
    obtain ⟨h1, h2⟩ := curList_pre_snoc R hR ps p
    by_cases hc : ps.length % R = 0 ∧ 0 < ps.length
    · rw [(h1 hc).1]
      simp
      omega
    · obtain ⟨e1, _, e3⟩ := h2 hc
      rw [e1]
      simp
      omega

theorem windowIs_empty (pfx : Bytes) : windowIs (∅ : BaseDB) pfx [] := by
  intro suffix
  simp [encCount]

/-- C12. For a round length `R` with `1 < R ≤ 65535`, when the blocks numbered 1 to n are
confirmed in order on an empty counter store, every call of `Confirmed` succeeds, and
afterwards, for every validator `v`, the current-window count of `v` is the number of blocks
that `v` produced among the blocks `m` to `n`, where `m = floor((n - 1) / R) * R + 1`, and,
when `n > R`, the previous-window entry of `v` is the serialization of the number of blocks
that `v` produced among the blocks `m - R` to `m - 1`, with no entry when this number is
zero. -/
theorem confirmed_window_invariant (env : Env L) (items : List (Block × NodeID)) (w : World L)
    (hR : 1 < env.ConsensusSize) (hR2 : env.ConsensusSize ≤ 65535)
    (hempty : w.base = ∅) (hch : chain env 0 items) :
    (confirmAll env (items.map Prod.fst) w).1 = .ok () ∧
    ∀ v : NodeID,
      storedCount (confirmAll env (items.map Prod.fst) w).2.base (curKey v.Bytes)
        = .ok ((producedIn (items.map Prod.snd)
            (roundStart env.ConsensusSize items.length) items.length).count v) ∧
      (items.length > env.ConsensusSize →
        (confirmAll env (items.map Prod.fst) w).2.base.lookup (preKey v.Bytes)
          = if (producedIn (items.map Prod.snd)
                (roundStart env.ConsensusSize items.length - env.ConsensusSize)
                (roundStart env.ConsensusSize items.length - 1)).count v = 0 then none
            else some (rlpEncodeUint16 ((producedIn (items.map Prod.snd)
                (roundStart env.ConsensusSize items.length - env.ConsensusSize)
                (roundStart env.ConsensusSize items.length - 1)).count v))) := by
  obtain ⟨hok, hwc, hwp⟩ := confirmAll_windows env hR hR2 items w
    (by rw [hempty]; exact windowIs_empty _) (by rw [hempty]; exact windowIs_empty _) hch
  refine ⟨hok, fun v => ⟨?_, ?_⟩⟩
  · have hlen := curList_length_le env.ConsensusSize hR (items.map Prod.snd)
    have hle := List.countP_le_length (fun x => decide (x.Bytes = v.Bytes))
      (l := curList env.ConsensusSize (items.map Prod.snd))
    have hst := storedCount_window _ _ v hwc (by omega)
    rw [hst, countP_bytes]
    simp [curList]
  · intro hgt
    have := hwp v.Bytes
    have hp : preAbnormalPrefix ++ v.Bytes = preKey v.Bytes := rfl
    rw [hp, countP_bytes] at this
    rw [this]
    have hgt2 : (items.map Prod.snd).length > env.ConsensusSize := by simpa using hgt
    simp only [preList, encCount, List.length_map, if_pos hgt]

/-- Witness of C12: round length 2 and three blocks signed by `demoNode 1`. -/
theorem confirmed_window_invariant_witness :
    1 < (demoEnv 2 25 [] []).ConsensusSize ∧ (demoEnv 2 25 [] []).ConsensusSize ≤ 65535 ∧
    (demoWorld ∅ none).base = ∅ ∧
    chain (demoEnv 2 25 [] []) 0
      [(demoBlock 1, demoNode 1), (demoBlock 2, demoNode 1), (demoBlock 3, demoNode 1)] ∧
    (confirmAll (demoEnv 2 25 [] [])
      ([(demoBlock 1, demoNode 1), (demoBlock 2, demoNode 1), (demoBlock 3, demoNode 1)].map
        Prod.fst) (demoWorld ∅ none)).1 = .ok () :=
  ⟨by decide, by decide, rfl, ⟨rfl, rfl, rfl, rfl, rfl, rfl, trivial⟩,
    (confirmed_window_invariant (demoEnv 2 25 [] [])
      [(demoBlock 1, demoNode 1), (demoBlock 2, demoNode 1), (demoBlock 3, demoNode 1)]
      (demoWorld ∅ none) (by decide) (by decide) rfl
      ⟨rfl, rfl, rfl, rfl, rfl, rfl, trivial⟩).1⟩

/-- C11 fails as stated: for block 5 of a chain with round length 250, whose producer has the
stored count 65535, `Confirmed` succeeds without rotation and the count of the producer is 0
afterwards, not one more than before. -/
theorem confirmed_count_wraps :
    ¬ ((⟨demoHeader 5, demoHash 1⟩ : Block).NumberU64 % (demoEnv 250 25 [] []).ConsensusSize = 1 ∧
      (⟨demoHeader 5, demoHash 1⟩ : Block).NumberU64 > 1) ∧
    parseNodeId (demoEnv 250 25 [] []) (demoHeader 5) = .ok (demoNode 1) ∧
    (Confirmed (demoEnv 250 25 [] [])
      (demoWorld (AList.insert (curKey (demoNode 1).Bytes) [130, 255, 255] ∅) none)
      ⟨demoHeader 5, demoHash 1⟩).1 = .ok () ∧
    storedCount (demoWorld (AList.insert (curKey (demoNode 1).Bytes) [130, 255, 255] ∅)
      none).base (curKey (demoNode 1).Bytes) = .ok 65535 ∧
    storedCount (Confirmed (demoEnv 250 25 [] [])
      (demoWorld (AList.insert (curKey (demoNode 1).Bytes) [130, 255, 255] ∅) none)
      ⟨demoHeader 5, demoHash 1⟩).2.base (curKey (demoNode 1).Bytes) = .ok 0 := by
  refine ⟨by decide, rfl, rfl, rfl, rfl⟩

/-- C11, amended. For a round length above zero, a block number `n` and a producer `p` on which
`Confirmed` succeeds: when `n mod R = 1` and `n > 1`, afterwards the previous window is the
current window as it was before the call, the current window holds exactly one entry, `p`
with count 1, and the keys outside of both windows are unchanged; for every other `n` the
only key that changes is the current-window key of `p`, whose count is one more than before
modulo 65536 (absent counted as 0), that is one more than before unless it was 65535. -/
theorem confirmed_rotation_trigger (env : Env L) (w : World L) (block : Block) (p : NodeID)
    (_hR : 0 < env.ConsensusSize)
    (hp : parseNodeId env block.Header = .ok p)
    (hok : (Confirmed env w block).1 = .ok ()) :
    (block.NumberU64 % env.ConsensusSize = 1 ∧ block.NumberU64 > 1 →
      (∀ k, (Confirmed env w block).2.base.lookup (preKey k) = w.base.lookup (curKey k)) ∧
      (∀ k, (Confirmed env w block).2.base.lookup (curKey k)
        = if k = p.Bytes then some (rlpEncodeUint16 1) else none) ∧
      storedCount (Confirmed env w block).2.base (curKey p.Bytes) = .ok 1 ∧
      (∀ key, ¬ curAbnormalPrefix <+: key → ¬ preAbnormalPrefix <+: key →
        (Confirmed env w block).2.base.lookup key = w.base.lookup key)) ∧
    (¬ (block.NumberU64 % env.ConsensusSize = 1 ∧ block.NumberU64 > 1) →
      ∃ c, storedCount w.base (curKey p.Bytes) = .ok c ∧
        storedCount (Confirmed env w block).2.base (curKey p.Bytes)
          = .ok ((c + 1) % 65536) ∧
        (c ≠ 65535 →
          storedCount (Confirmed env w block).2.base (curKey p.Bytes) = .ok (c + 1)) ∧
        (∀ key, key ≠ curKey p.Bytes →
          (Confirmed env w block).2.base.lookup key = w.base.lookup key)) := by
  constructor
  · intro hc
    obtain ⟨_, hb⟩ := Confirmed_rot env w block p hc hp
    obtain ⟨r1, r2, r3⟩ := rotate_lookup w.base
    rw [hb]
    refine ⟨?_, ?_, ?_, ?_⟩
    · intro k
      rw [AList.lookup_insert_ne (curKey_ne_preKey k p.Bytes), r1 k]
    · intro k
      by_cases hk : k = p.Bytes
      · subst hk
        simp [AList.lookup_insert]
      · have hne : curKey k ≠ curKey p.Bytes := fun h => hk (List.append_cancel_left h)
        rw [AList.lookup_insert_ne hne, r2 k, if_neg hk]
    · exact storedCount_insert _ _ 1 (by decide)
    · intro key h1 h2
      have hne : key ≠ curKey p.Bytes := fun h => h1 ⟨p.Bytes, h.symm⟩
      rw [AList.lookup_insert_ne hne, r3 key h1 h2]
  · intro hc
    rw [Confirmed_norot env w block hc] at hok ⊢
    obtain ⟨_, h2, h3⟩ := setBlockAmount_stored env w block.Hash block.Header p hp
    obtain ⟨c, hcnt⟩ := h3 hok
    have hb := h2 c hok hcnt
    have hlt := storedCount_lt _ _ c hcnt
    refine ⟨c, hcnt, ?_, ?_, ?_⟩
    · rw [hb]
      exact storedCount_insert _ _ _ (Nat.mod_lt _ (by decide))
    · intro hne
      rw [hb, Nat.mod_eq_of_lt (by omega)]
      exact storedCount_insert _ _ _ (by omega)
    · intro key hne
      rw [hb, AList.lookup_insert_ne hne]

/-- Witness of the amended C11: block 251 of a chain with round length 250, confirmed on a
store that holds a current-window count of `demoNode 2`. -/
theorem confirmed_rotation_trigger_witness :
    0 < (demoEnv 250 25 [] []).ConsensusSize ∧
    parseNodeId (demoEnv 250 25 [] []) (demoBlock 251).Header = .ok (demoNode 1) ∧
    (Confirmed (demoEnv 250 25 [] [])
      (demoWorld (AList.insert (curKey (demoNode 2).Bytes) [7] ∅) none) (demoBlock 251)).1
      = .ok () ∧
    ((demoBlock 251).NumberU64 % (demoEnv 250 25 [] []).ConsensusSize = 1 ∧
      (demoBlock 251).NumberU64 > 1) ∧
    storedCount (Confirmed (demoEnv 250 25 [] [])
      (demoWorld (AList.insert (curKey (demoNode 2).Bytes) [7] ∅) none) (demoBlock 251)).2.base
      (curKey (demoNode 1).Bytes) = .ok 1 :=
  ⟨by decide, rfl, rfl, by decide,
    ((confirmed_rotation_trigger (demoEnv 250 25 [] [])
      (demoWorld (AList.insert (curKey (demoNode 2).Bytes) [7] ∅) none) (demoBlock 251)
      (demoNode 1) (by decide) rfl rfl).1 (by decide)).2.2.1⟩

end Slashing
